import Mathlib

set_option maxRecDepth 8000

/-!
Verification of the `split` utility (Go, `src/main.go`) against its
natural-language specification.

The program is shallowly embedded below:

* Go strings and byte slices are `List ℕ` (each element an octet value);
* `uint64` arithmetic is `ℕ` with an explicit `% 2 ^ 64` at the points where
  Go can actually wrap (the `index+1` bound check and the threshold
  subtraction in `genFileName`);
* the IEEE-754 binary64 (`float64`) arithmetic used by `genFileName` is
  modelled exactly: a float value is the rational it denotes, and every
  operation result is re-rounded with round-to-nearest, ties-to-even
  (function `fl`).  All values reached by the program stay well inside the
  normal range, so neither subnormals, infinities nor overflow need to be
  modelled;
* fallible Go functions return `Except`.
-/

/-! ## Exact model of binary64 rounding

`fl q` is the binary64 value nearest to the rational `q` (ties to even),
for positive `q` in the normal range.  It is built from a fuel-based
floor-log2 so that everything reduces in the kernel. -/

/-- Floor of log2 on naturals, fuel-based so the kernel can evaluate it.
`log2fuel fuel n` is the greatest `e` with `2 ^ e ≤ n`, provided `1 ≤ n`
and `n < 2 ^ fuel`. -/
def log2fuel : ℕ → ℕ → ℕ
  | 0, _ => 0
  | fuel + 1, n => if 2 ≤ n then log2fuel fuel (n / 2) + 1 else 0

/-- For `0 < q < 1`, the least `k ≥ 1` with `1 ≤ q * 2 ^ k` (fuel-based). -/
def negExp : ℕ → ℚ → ℕ
  | 0, _ => 1
  | fuel + 1, q => if 1 ≤ 2 * q then 1 else negExp fuel (2 * q) + 1

/-- `qlog2 q = ⌊log₂ q⌋` for positive rationals in the fuel range. -/
def qlog2 (q : ℚ) : ℤ :=
  if 1 ≤ q then (log2fuel 300 ⌊q⌋₊ : ℤ) else -(negExp 300 q : ℤ)

/-- Round a nonnegative rational to an integer, half to even (the IEEE tie
rule).  Only ever applied to scaled significands, which are nonnegative. -/
def rhe (q : ℚ) : ℕ :=
  if q - ⌊q⌋₊ < 1 / 2 then ⌊q⌋₊
  else if 1 / 2 < q - ⌊q⌋₊ then ⌊q⌋₊ + 1
  else if 2 ∣ ⌊q⌋₊ then ⌊q⌋₊ else ⌊q⌋₊ + 1

/-- Round a positive rational to the nearest binary64 value (ties to even).
The significand is 53 bits: scale `q` into `[2^52, 2^53)`, round to an
integer half-to-even, and scale back. -/
def fl (q : ℚ) : ℚ :=
  if q ≤ 0 then 0
  else (rhe (q * 2 ^ (52 - qlog2 q)) : ℚ) * 2 ^ (qlog2 q - 52)

theorem log2fuel_correct : ∀ fuel n, 1 ≤ n → n < 2 ^ fuel →
    2 ^ log2fuel fuel n ≤ n ∧ n < 2 ^ (log2fuel fuel n + 1) := by
  intro fuel
  induction fuel with
  | zero => intro n h1 h2; omega
  | succ fuel ih =>
    intro n h1 h2
    rw [log2fuel]
    by_cases h : 2 ≤ n
    · simp only [if_pos h]
      have hn2 : 1 ≤ n / 2 := by omega
      have hlt : n / 2 < 2 ^ fuel := by
        have hdiv : n / 2 < 2 ^ fuel ↔ n < 2 ^ fuel * 2 :=
          Nat.div_lt_iff_lt_mul (show 0 < 2 by norm_num)
        rw [hdiv]
        calc n < 2 ^ (fuel + 1) := h2
        _ = 2 ^ fuel * 2 := by ring
      obtain ⟨hle, hlt'⟩ := ih (n / 2) hn2 hlt
      constructor
      · calc 2 ^ (log2fuel fuel (n / 2) + 1) = 2 ^ log2fuel fuel (n / 2) * 2 := by ring
        _ ≤ n / 2 * 2 := by omega
        _ ≤ n := by omega
      · calc n < (n / 2 + 1) * 2 := by omega
        _ ≤ 2 ^ (log2fuel fuel (n / 2) + 1) * 2 := by
            have : n / 2 + 1 ≤ 2 ^ (log2fuel fuel (n / 2) + 1) := hlt'
            omega
        _ = 2 ^ (log2fuel fuel (n / 2) + 1 + 1) := by ring
    · simp only [if_neg h]
      constructor
      · simpa using h1
      · simpa using (by omega : n < 2)

theorem negExp_correct : ∀ fuel (q : ℚ), 0 < q → q < 1 → 1 ≤ q * 2 ^ fuel →
    1 ≤ q * 2 ^ negExp fuel q ∧ q * 2 ^ (negExp fuel q) < 2 := by
  intro fuel
  induction fuel with
  | zero =>
    intro q h0 h1 hf
    simp only [pow_zero, mul_one] at hf
    exact absurd h1 (not_lt.mpr hf)
  | succ fuel ih =>
    intro q h0 h1 hf
    rw [negExp]
    by_cases h : 1 ≤ 2 * q
    · simp only [if_pos h]
      constructor
      · calc (1 : ℚ) ≤ 2 * q := h
        _ = q * 2 ^ 1 := by ring
      · calc q * 2 ^ 1 = 2 * q := by ring
        _ < 2 * 1 := by linarith
        _ = 2 := by norm_num
    · simp only [if_neg h]
      push_neg at h
      have h2 : 2 * q < 1 := by linarith
      have hf' : 1 ≤ 2 * q * 2 ^ fuel := by
        calc (1 : ℚ) ≤ q * 2 ^ (fuel + 1) := hf
        _ = 2 * q * 2 ^ fuel := by ring
      obtain ⟨ha, hb⟩ := ih (2 * q) (by linarith) h2 hf'
      constructor
      · calc (1 : ℚ) ≤ 2 * q * 2 ^ negExp fuel (2 * q) := ha
        _ = q * 2 ^ (negExp fuel (2 * q) + 1) := by ring
      · calc q * 2 ^ (negExp fuel (2 * q) + 1) = 2 * q * 2 ^ negExp fuel (2 * q) := by ring
        _ < 2 := hb

/-- Bracketing property of `qlog2`: for positive `q` within the fuel range,
`2 ^ qlog2 q ≤ q < 2 ^ (qlog2 q + 1)`. -/
theorem qlog2_bracket (q : ℚ) (h0 : 0 < q) (hlow : 1 ≤ q * 2 ^ 300)
    (hhigh : (⌊q⌋₊ : ℕ) < 2 ^ 300) :
    (2 : ℚ) ^ qlog2 q ≤ q ∧ q < 2 ^ (qlog2 q + 1) := by
  unfold qlog2
  by_cases h : 1 ≤ q
  · rw [if_pos h]
    have hfl : 1 ≤ ⌊q⌋₊ := Nat.le_floor (by exact_mod_cast h)
    obtain ⟨ha, hb⟩ := log2fuel_correct 300 ⌊q⌋₊ hfl hhigh
    set e := log2fuel 300 ⌊q⌋₊ with he
    have hcast : (2 : ℚ) ^ (e : ℤ) = ((2 ^ e : ℕ) : ℚ) := by
      rw [zpow_natCast]; push_cast; ring
    have hcast1 : (2 : ℚ) ^ ((e : ℤ) + 1) = ((2 ^ (e + 1) : ℕ) : ℚ) := by
      rw [show ((e : ℤ) + 1) = ((e + 1 : ℕ) : ℤ) by push_cast; ring, zpow_natCast]
      push_cast; ring
    constructor
    · calc (2 : ℚ) ^ (e : ℤ) = ((2 ^ e : ℕ) : ℚ) := hcast
      _ ≤ (⌊q⌋₊ : ℚ) := by exact_mod_cast ha
      _ ≤ q := Nat.floor_le (le_of_lt h0)
    · calc q < (⌊q⌋₊ : ℚ) + 1 := Nat.lt_floor_add_one q
      _ ≤ ((2 ^ (e + 1) : ℕ) : ℚ) := by exact_mod_cast hb
      _ = (2 : ℚ) ^ ((e : ℤ) + 1) := hcast1.symm
  · rw [if_neg h]
    push_neg at h
    obtain ⟨ha, hb⟩ := negExp_correct 300 q h0 h hlow
    set k := negExp 300 q with hk
    set s : ℚ := 2 ^ k with hs
    have hsp : (0 : ℚ) < s := by positivity
    have hsne : s ≠ 0 := ne_of_gt hsp
    have hneg : (2 : ℚ) ^ (-(k : ℤ)) = s⁻¹ := by
      rw [zpow_neg, zpow_natCast]
    constructor
    · rw [hneg]
      calc s⁻¹ = s⁻¹ * 1 := by ring
      _ ≤ s⁻¹ * (q * s) := by
          exact mul_le_mul_of_nonneg_left ha (le_of_lt (inv_pos.mpr hsp))
      _ = q * (s⁻¹ * s) := by ring
      _ = q := by rw [inv_mul_cancel₀ hsne]; ring
    · have hexp : (2 : ℚ) ^ (-(k : ℤ) + 1) = 2 * s⁻¹ := by
        rw [zpow_add₀ (two_ne_zero), hneg, zpow_one]; ring
      rw [hexp]
      calc q = q * s * s⁻¹ := by rw [mul_assoc, mul_inv_cancel₀ hsne, mul_one]
      _ < 2 * s⁻¹ := mul_lt_mul_of_pos_right hb (inv_pos.mpr hsp)

theorem floor_le_rhe (q : ℚ) : ⌊q⌋₊ ≤ rhe q := by
  unfold rhe
  split
  · exact le_refl _
  · split
    · omega
    · split <;> omega

theorem rhe_le_floor_add_one (q : ℚ) : rhe q ≤ ⌊q⌋₊ + 1 := by
  unfold rhe
  split
  · omega
  · split
    · exact le_refl _
    · split <;> omega

theorem rhe_mono {p q : ℚ} (h : p ≤ q) : rhe p ≤ rhe q := by
  by_cases hf : ⌊p⌋₊ < ⌊q⌋₊
  · calc rhe p ≤ ⌊p⌋₊ + 1 := rhe_le_floor_add_one p
    _ ≤ ⌊q⌋₊ := by omega
    _ ≤ rhe q := floor_le_rhe q
  · have hfe : ⌊p⌋₊ = ⌊q⌋₊ := le_antisymm (Nat.floor_le_floor h) (by omega)
    by_cases ha : p - ⌊p⌋₊ < 1 / 2
    · have hp : rhe p = ⌊p⌋₊ := by unfold rhe; rw [if_pos ha]
      rw [hp, hfe]
      exact floor_le_rhe q
    · by_cases hb : 1 / 2 < q - ⌊q⌋₊
      · have hq : rhe q = ⌊q⌋₊ + 1 := by
          unfold rhe
          rw [if_neg (by linarith), if_pos hb]
        calc rhe p ≤ ⌊p⌋₊ + 1 := rhe_le_floor_add_one p
        _ = ⌊q⌋₊ + 1 := by omega
        _ = rhe q := hq.symm
      · have hpq : p = q := by
          have h1 : 1 / 2 ≤ p - ⌊p⌋₊ := le_of_not_lt ha
          have h2 : q - ⌊q⌋₊ ≤ 1 / 2 := le_of_not_lt hb
          have h3 : ((⌊p⌋₊ : ℕ) : ℚ) = ((⌊q⌋₊ : ℕ) : ℚ) := by exact_mod_cast hfe
          linarith
        rw [hpq]

/-- The domain on which the float model is exercised: positive rationals
within the fuel window of `qlog2`. -/
def Rng (q : ℚ) : Prop := 0 < q ∧ 1 ≤ q * 2 ^ 300 ∧ (⌊q⌋₊ : ℕ) < 2 ^ 300

theorem fl_le_pow {q : ℚ} (h : Rng q) : fl q ≤ 2 ^ (qlog2 q + 1) := by
  obtain ⟨h0, hlow, hhigh⟩ := h
  obtain ⟨hb1, hb2⟩ := qlog2_bracket q h0 hlow hhigh
  unfold fl
  rw [if_neg (not_le.mpr h0)]
  set e := qlog2 q with he
  have hsp : (0 : ℚ) < 2 ^ (52 - e) := by positivity
  have hs2 : q * 2 ^ (52 - e) < 2 ^ 53 := by
    calc q * 2 ^ (52 - e) < 2 ^ (e + 1) * 2 ^ (52 - e) := by
          exact mul_lt_mul_of_pos_right hb2 hsp
    _ = 2 ^ (53 : ℤ) := by rw [← zpow_add₀ (two_ne_zero : (2:ℚ) ≠ 0)]; ring_nf
    _ = 2 ^ (53 : ℕ) := by norm_num
  have hfl : ⌊q * 2 ^ (52 - e)⌋₊ < 2 ^ 53 := by
    rw [Nat.floor_lt (le_of_lt (mul_pos h0 hsp))]
    push_cast
    exact hs2
  have hr : rhe (q * 2 ^ (52 - e)) ≤ 2 ^ 53 :=
    le_trans (rhe_le_floor_add_one (q * 2 ^ (52 - e))) (Nat.succ_le_of_lt hfl)
  calc (rhe (q * 2 ^ (52 - e)) : ℚ) * 2 ^ (e - 52)
      ≤ (2 ^ 53 : ℚ) * 2 ^ (e - 52) := by
        have hps : (0 : ℚ) < 2 ^ (e - 52) := by positivity
        have hqc : ((rhe (q * 2 ^ (52 - e)) : ℕ) : ℚ) ≤ ((2 ^ 53 : ℕ) : ℚ) := by
          exact_mod_cast hr
        calc (rhe (q * 2 ^ (52 - e)) : ℚ) * 2 ^ (e - 52)
            ≤ ((2 ^ 53 : ℕ) : ℚ) * 2 ^ (e - 52) := mul_le_mul_of_nonneg_right hqc (le_of_lt hps)
        _ = (2 ^ 53 : ℚ) * 2 ^ (e - 52) := by push_cast; ring
  _ = 2 ^ (e + 1) := by
      rw [show ((2 : ℚ) ^ (53 : ℕ)) = (2 : ℚ) ^ (53 : ℤ) by norm_num]
      rw [← zpow_add₀ (two_ne_zero : (2:ℚ) ≠ 0)]
      ring_nf

theorem pow_le_fl {q : ℚ} (h : Rng q) : 2 ^ qlog2 q ≤ fl q := by
  obtain ⟨h0, hlow, hhigh⟩ := h
  obtain ⟨hb1, hb2⟩ := qlog2_bracket q h0 hlow hhigh
  unfold fl
  rw [if_neg (not_le.mpr h0)]
  set e := qlog2 q with he
  have hsp : (0 : ℚ) < 2 ^ (52 - e) := by positivity
  have hs1 : (2 : ℚ) ^ (52 : ℕ) ≤ q * 2 ^ (52 - e) := by
    calc (2 : ℚ) ^ (52 : ℕ) = 2 ^ (52 : ℤ) := by norm_num
    _ = 2 ^ e * 2 ^ (52 - e) := by
        rw [← zpow_add₀ (two_ne_zero : (2:ℚ) ≠ 0)]; ring_nf
    _ ≤ q * 2 ^ (52 - e) := mul_le_mul_of_nonneg_right hb1 (le_of_lt hsp)
  have hfl : (2 ^ 52 : ℕ) ≤ ⌊q * 2 ^ (52 - e)⌋₊ := by
    rw [Nat.le_floor_iff (le_of_lt (mul_pos h0 hsp))]
    push_cast
    exact hs1
  have hr : (2 ^ 52 : ℕ) ≤ rhe (q * 2 ^ (52 - e)) :=
    le_trans hfl (floor_le_rhe (q * 2 ^ (52 - e)))
  have hps : (0 : ℚ) < 2 ^ (e - 52) := by positivity
  have hc : (2 : ℚ) ^ (52 : ℤ) ≤ (rhe (q * 2 ^ (52 - e)) : ℚ) := by
    have hc0 : ((2 ^ 52 : ℕ) : ℚ) ≤ ((rhe (q * 2 ^ (52 - e)) : ℕ) : ℚ) := by
      exact_mod_cast hr
    have h2 : ((2 ^ 52 : ℕ) : ℚ) = (2 : ℚ) ^ (52 : ℤ) := by push_cast; norm_num
    rw [← h2]
    exact hc0
  calc (2 : ℚ) ^ e = (2 : ℚ) ^ (52 : ℤ) * 2 ^ (e - 52) := by
        rw [← zpow_add₀ (two_ne_zero : (2:ℚ) ≠ 0)]; ring_nf
  _ ≤ (rhe (q * 2 ^ (52 - e)) : ℚ) * 2 ^ (e - 52) :=
      mul_le_mul_of_nonneg_right hc (le_of_lt hps)

theorem qlog2_le_qlog2 {p q : ℚ} (hp : Rng p) (hq : Rng q) (h : p ≤ q) :
    qlog2 p ≤ qlog2 q := by
  obtain ⟨hp0, hpl, hph⟩ := hp
  obtain ⟨hq0, hql, hqh⟩ := hq
  obtain ⟨hpa, hpb⟩ := qlog2_bracket p hp0 hpl hph
  obtain ⟨hqa, hqb⟩ := qlog2_bracket q hq0 hql hqh
  have hpow : (2 : ℚ) ^ qlog2 p < 2 ^ (qlog2 q + 1) := by
    calc (2 : ℚ) ^ qlog2 p ≤ p := hpa
    _ ≤ q := h
    _ < 2 ^ (qlog2 q + 1) := hqb
  have := (zpow_lt_zpow_iff_right₀ (by norm_num : (1:ℚ) < 2)).mp hpow
  omega

theorem fl_mono {p q : ℚ} (hp : Rng p) (hq : Rng q) (h : p ≤ q) : fl p ≤ fl q := by
  have hee := qlog2_le_qlog2 hp hq h
  by_cases he : qlog2 p = qlog2 q
  · obtain ⟨hp0, _, _⟩ := hp
    obtain ⟨hq0, _, _⟩ := hq
    unfold fl
    rw [if_neg (not_le.mpr hp0), if_neg (not_le.mpr hq0), he]
    set e := qlog2 q with hedef
    have hps : (0 : ℚ) < 2 ^ (52 - e) := by positivity
    have hmono : rhe (p * 2 ^ (52 - e)) ≤ rhe (q * 2 ^ (52 - e)) :=
      rhe_mono (mul_le_mul_of_nonneg_right h (le_of_lt hps))
    have hcast : ((rhe (p * 2 ^ (52 - e)) : ℕ) : ℚ) ≤ ((rhe (q * 2 ^ (52 - e)) : ℕ) : ℚ) := by
      exact_mod_cast hmono
    exact mul_le_mul_of_nonneg_right hcast (by positivity)
  · have hlt : qlog2 p + 1 ≤ qlog2 q := by omega
    calc fl p ≤ 2 ^ (qlog2 p + 1) := fl_le_pow hp
    _ ≤ 2 ^ qlog2 q := by
        exact zpow_le_zpow_right₀ (by norm_num : (1:ℚ) ≤ 2) hlt
    _ ≤ fl q := pow_le_fl hq

/-- The float model over-approximates by less than a factor 2. -/
theorem fl_le_two_mul {q : ℚ} (h : Rng q) : fl q ≤ 2 * q := by
  obtain ⟨h0, hl, hh⟩ := h
  obtain ⟨ha, _⟩ := qlog2_bracket q h0 hl hh
  calc fl q ≤ 2 ^ (qlog2 q + 1) := fl_le_pow ⟨h0, hl, hh⟩
  _ = 2 * 2 ^ qlog2 q := by
      rw [zpow_add₀ (two_ne_zero : (2:ℚ) ≠ 0), zpow_one]; ring
  _ ≤ 2 * q := by linarith

/-- The float model under-approximates by less than a factor 2. -/
theorem half_lt_fl {q : ℚ} (h : Rng q) : q / 2 < fl q := by
  obtain ⟨h0, hl, hh⟩ := h
  obtain ⟨_, hb⟩ := qlog2_bracket q h0 hl hh
  have : q / 2 < 2 ^ qlog2 q := by
    have h2 : q < 2 * 2 ^ qlog2 q := by
      calc q < 2 ^ (qlog2 q + 1) := hb
      _ = 2 * 2 ^ qlog2 q := by
          rw [zpow_add₀ (two_ne_zero : (2:ℚ) ≠ 0), zpow_one]; ring
    linarith
  calc q / 2 < 2 ^ qlog2 q := this
  _ ≤ fl q := pow_le_fl ⟨h0, hl, hh⟩

/-- Membership in the model's working range for the chain values reached by
the suffix-width loop. -/
theorem rng_div26 {f : ℚ} (h1 : 1 ≤ f) (h2 : f ≤ 2 ^ 100) : Rng (f / 26) := by
  refine ⟨by linarith, ?_, ?_⟩
  · calc (1 : ℚ) ≤ (1 / 26) * 2 ^ 300 := by norm_num
    _ ≤ (f / 26) * 2 ^ 300 := by
        have : (1 : ℚ) / 26 ≤ f / 26 := by linarith
        nlinarith [this]
  · have hle : (⌊f / 26⌋₊ : ℚ) ≤ f / 26 := Nat.floor_le (by linarith)
    have : (⌊f / 26⌋₊ : ℚ) < 2 ^ 300 := by
      calc (⌊f / 26⌋₊ : ℚ) ≤ f / 26 := hle
      _ ≤ 2 ^ 100 / 26 := by linarith
      _ < 2 ^ 300 := by norm_num
    exact_mod_cast this

/-! ## The suffix generator `genFileName` (src/main.go, lines 219–254)

Bytes of names are modelled as natural numbers (ASCII codes); `97 = 'a'`,
`122 = 'z'`, `120 = 'x'`. -/

inductive SplitType
  | ByBytes
  | ByLines
  | ByFiles
deriving DecidableEq

/-- Wrapping `uint64` subtraction `a - b` (for `a, b < 2 ^ 64`). -/
def wsub (a b : ℕ) : ℕ := (2 ^ 64 + a - b) % 2 ^ 64

/-- `uint64(math.Pow(26, float64(i)))` as used by `genFileName` for
`i = 1 .. 14`.  For `i ≤ 13` the float computation is exact (`26^i` has at
most a 49-bit odd part, so `math.Pow` returns it exactly) and the value fits
in `uint64`.  `26^14` is also an exact float but exceeds `2^64 - 1`, so the
Go conversion is implementation-dependent; on amd64 it yields `0`, which is
what this model uses.  The choice is only observable for indices within 26
of `2^64`, which no theorem below depends on. -/
def pow26u (i : ℕ) : ℕ := if i ≤ 13 then 26 ^ i else 0

/-- The window-searching loop of `genFileName`
(`for i := 1; i < 14; i++ { if … { …; break } }`): starting at `i`, with
`fuel` iterations left, return the first `i` whose window contains `index`. -/
def findWindowGo (index : ℕ) : ℕ → ℕ → Option ℕ
  | 0, _ => none
  | fuel + 1, i =>
    if wsub (pow26u i) 26 ≤ index ∧ index < wsub (pow26u (i + 1)) 26 then some i
    else findWindowGo index fuel (i + 1)

/-- The rendering loop of `genFileName`
(`for fileCountF >= 1 { tmp = char + tmp; if fileCountF/26 == 1 { break };
fileCountF /= 26; index /= 26 }`), with explicit fuel (the Go loop
terminates after at most 14 iterations for any `uint64` seed; fuel 64 is
ample and is what `genFileName` passes). -/
def renderLoop : ℕ → ℚ → ℕ → List ℕ → List ℕ
  | 0, _, _, tmp => tmp
  | fuel + 1, f, index, tmp =>
    if 1 ≤ f then
      if fl (f / 26) = 1 then (97 + index % 26) :: tmp
      else renderLoop fuel (fl (f / 26)) (index / 26) ((97 + index % 26) :: tmp)
    else tmp

/-- Number of characters the rendering loop emits; depends only on the
float `fileCountF` seed, not on the index being rendered. -/
def emitCount : ℕ → ℚ → ℕ
  | 0, _ => 0
  | fuel + 1, f =>
    if 1 ≤ f then
      if fl (f / 26) = 1 then 1
      else emitCount fuel (fl (f / 26)) + 1
    else 0

instance {ε α : Type} [DecidableEq ε] [DecidableEq α] : DecidableEq (Except ε α) := fun
  | Except.error a, Except.error b =>
      if h : a = b then Decidable.isTrue (by rw [h])
      else Decidable.isFalse (fun hc => h (by injection hc))
  | Except.ok a, Except.ok b =>
      if h : a = b then Decidable.isTrue (by rw [h])
      else Decidable.isFalse (fun hc => h (by injection hc))
  | Except.error _, Except.ok _ => Decidable.isFalse (fun hc => Except.noConfusion hc)
  | Except.ok _, Except.error _ => Decidable.isFalse (fun hc => Except.noConfusion hc)

/-- `genFileName(prefix, index, fileCount, splitType)` from src/main.go.
Returns the full output file name(as a byte list) or an error for an
out-of-range `ByFiles` index.  `index` and `fileCount` are `uint64` values
(callers pass values `< 2 ^ 64`). -/
def genFileName (pfx : List ℕ) (index fileCount : ℕ) (splitType : SplitType) :
    Except Unit (List ℕ) :=
  if splitType = SplitType.ByFiles ∧ fileCount < (index + 1) % 2 ^ 64 then
    Except.error ()
  else
    let pfx1 := if pfx = [] then [120] else pfx
    let s3 : List ℕ × ℕ × ℕ :=
      if splitType = SplitType.ByFiles then (pfx1, index, fileCount)
      else
        match findWindowGo index 13 1 with
        | some i => (pfx1 ++ List.replicate (i - 1) 122,
                     index - (pow26u i - 26), pow26u i + 1)
        | none => (pfx1, index, 26)
    let pre : List ℕ × ℕ :=
      if s3.2.2 < 27 then ([97 + s3.2.1 % 26], s3.2.1 / 26) else ([], s3.2.1)
    Except.ok (s3.1 ++ renderLoop 64 (fl (s3.2.2 : ℚ)) pre.2 pre.1)


/-! ## Executable mirror of the float chain on numerator/denominator pairs

The library's rational operations are `@[irreducible]`, so concrete values
of `fl`-chains cannot be obtained by kernel reduction through `ℚ`.  The
functions below mirror `negExp`, `qlog2`, `rhe`, `fl` and `emitCount` on
explicit numerator/denominator pairs of naturals and are proved to agree
with them; all concrete evaluations go through this mirror. -/

/-- Mirror of `negExp` on a fraction `n / d`. -/
def negExpP : ℕ → ℕ → ℕ → ℕ
  | 0, _, _ => 1
  | fuel + 1, n, d => if d ≤ 2 * n then 1 else negExpP fuel (2 * n) d + 1

/-- Mirror of `qlog2` on a fraction `n / d`. -/
def qlog2p (n d : ℕ) : ℤ :=
  if d ≤ n then (log2fuel 300 (n / d) : ℤ) else -(negExpP 300 n d : ℤ)

/-- Mirror of `rhe` on a fraction `n / d`. -/
def rheP (n d : ℕ) : ℕ :=
  if 2 * (n % d) < d then n / d
  else if d < 2 * (n % d) then n / d + 1
  else if 2 ∣ n / d then n / d else n / d + 1

/-- Mirror of `fl` on a fraction `n / d`, returning a fraction.  (When the
exponent is exactly 52 the two branches agree, so only two cases remain.) -/
def flP (n d : ℕ) : ℕ × ℕ :=
  if qlog2p n d ≤ 52 then
    (rheP (n * 2 ^ (52 - qlog2p n d).toNat) d, 2 ^ (52 - qlog2p n d).toNat)
  else
    (rheP n (d * 2 ^ (qlog2p n d - 52).toNat) * 2 ^ (qlog2p n d - 52).toNat, 1)

/-- Mirror of `emitCount` on a fraction `n / d`. -/
def emitCountP : ℕ → ℕ → ℕ → ℕ
  | 0, _, _ => 0
  | fuel + 1, n, d =>
    if d ≤ n then
      let p := flP n (26 * d)
      if p.1 = p.2 then 1 else emitCountP fuel p.1 p.2 + 1
    else 0

theorem negExpP_eq : ∀ fuel (n d : ℕ), 0 < d →
    negExpP fuel n d = negExp fuel ((n : ℚ) / d) := by
  intro fuel
  induction fuel with
  | zero => intro n d _; rfl
  | succ fuel ih =>
    intro n d hd
    have hd0 : (0 : ℚ) < (d : ℚ) := by exact_mod_cast hd
    have hiff : (1 : ℚ) ≤ 2 * ((n : ℚ) / d) ↔ d ≤ 2 * n := by
      rw [mul_div_assoc']
      rw [le_div_iff₀ hd0]
      constructor
      · intro h
        have : (d : ℚ) ≤ ((2 * n : ℕ) : ℚ) := by push_cast; linarith
        exact_mod_cast this
      · intro h
        have : ((d : ℕ) : ℚ) ≤ ((2 * n : ℕ) : ℚ) := by exact_mod_cast h
        push_cast at this
        linarith
    rw [negExpP, negExp]
    by_cases h : d ≤ 2 * n
    · rw [if_pos h, if_pos (hiff.mpr h)]
    · rw [if_neg h, if_neg (fun hc => h (hiff.mp hc))]
      rw [ih (2 * n) d hd]
      congr 1
      push_cast
      ring

theorem floor_natCast_div (n d : ℕ) : ⌊(n : ℚ) / (d : ℚ)⌋₊ = n / d := by
  rw [Nat.floor_div_nat (n : ℚ) d, Nat.floor_natCast]

theorem qlog2p_eq (n d : ℕ) (hd : 0 < d) : qlog2p n d = qlog2 ((n : ℚ) / d) := by
  have hd0 : (0 : ℚ) < (d : ℚ) := by exact_mod_cast hd
  have hiff : (1 : ℚ) ≤ (n : ℚ) / d ↔ d ≤ n := by
    rw [le_div_iff₀ hd0, one_mul]
    exact_mod_cast Iff.rfl
  unfold qlog2p qlog2
  by_cases h : d ≤ n
  · rw [if_pos h, if_pos (hiff.mpr h), floor_natCast_div]
  · rw [if_neg h, if_neg (fun hc => h (hiff.mp hc))]
    rw [negExpP_eq 300 n d hd]

theorem rheP_eq (n d : ℕ) (hd : 0 < d) : rheP n d = rhe ((n : ℚ) / d) := by
  have hd0 : (0 : ℚ) < (d : ℚ) := by exact_mod_cast hd
  have hfloor : ⌊(n : ℚ) / (d : ℚ)⌋₊ = n / d := floor_natCast_div n d
  have hmod : (d : ℚ) * ((n / d : ℕ) : ℚ) + ((n % d : ℕ) : ℚ) = (n : ℚ) := by
    exact_mod_cast congrArg (fun k : ℕ => (k : ℚ)) (Nat.div_add_mod n d)
  have hfrac : (n : ℚ) / d - ((n / d : ℕ) : ℚ) = ((n % d : ℕ) : ℚ) / d := by
    rw [div_sub' _ _ _ (ne_of_gt hd0), div_eq_div_iff (ne_of_gt hd0) (ne_of_gt hd0)]
    ring_nf
    nlinarith [hmod]
  have hc1 : ((n % d : ℕ) : ℚ) / d < 1 / 2 ↔ 2 * (n % d) < d := by
    rw [div_lt_div_iff₀ hd0 (by norm_num : (0:ℚ) < 2)]
    constructor
    · intro h
      have h2 : ((2 * (n % d) : ℕ) : ℚ) < ((d : ℕ) : ℚ) := by push_cast; linarith
      exact_mod_cast h2
    · intro h
      have h2 : ((2 * (n % d) : ℕ) : ℚ) < ((d : ℕ) : ℚ) := by exact_mod_cast h
      push_cast at h2
      linarith
  have hc2 : 1 / 2 < ((n % d : ℕ) : ℚ) / d ↔ d < 2 * (n % d) := by
    rw [div_lt_div_iff₀ (by norm_num : (0:ℚ) < 2) hd0]
    constructor
    · intro h
      have h2 : ((d : ℕ) : ℚ) < ((2 * (n % d) : ℕ) : ℚ) := by push_cast; linarith
      exact_mod_cast h2
    · intro h
      have h2 : ((d : ℕ) : ℚ) < ((2 * (n % d) : ℕ) : ℚ) := by exact_mod_cast h
      push_cast at h2
      linarith
  unfold rhe rheP
  rw [hfloor, hfrac]
  simp only [hc1, hc2]

theorem natCast_two_pow (t : ℕ) : ((2 ^ t : ℕ) : ℚ) = (2 : ℚ) ^ t := by
  push_cast; ring

theorem flP_eq (n d : ℕ) (hn : 0 < n) (hd : 0 < d) :
    0 < (flP n d).2 ∧ ((flP n d).1 : ℚ) / ((flP n d).2 : ℚ) = fl ((n : ℚ) / d) := by
  have hd0 : (0 : ℚ) < d := by exact_mod_cast hd
  have hn0 : (0 : ℚ) < n := by exact_mod_cast hn
  have hq0 : 0 < (n : ℚ) / d := div_pos hn0 hd0
  have hfl : fl ((n : ℚ) / d) =
      (rhe ((n : ℚ) / d * 2 ^ (52 - qlog2p n d)) : ℚ) * 2 ^ (qlog2p n d - 52) := by
    unfold fl
    rw [if_neg (not_le.mpr hq0), qlog2p_eq n d hd]
  unfold flP
  by_cases hle : qlog2p n d ≤ 52
  · rw [if_pos hle]
    dsimp only
    set e := qlog2p n d with hedef
    set t := (52 - e).toNat with htdef
    have htn : ((t : ℕ) : ℤ) = 52 - e := Int.toNat_of_nonneg (by omega)
    refine ⟨by positivity, ?_⟩
    rw [hfl]
    have hz : (2 : ℚ) ^ ((52 : ℤ) - e) = (2 : ℚ) ^ (t : ℕ) := by
      rw [← htn, zpow_natCast]
    have harg : (n : ℚ) / d * 2 ^ ((52 : ℤ) - e) = ((n * 2 ^ t : ℕ) : ℚ) / d := by
      rw [hz]
      push_cast
      ring
    rw [harg, ← rheP_eq _ d hd]
    have hpow : (2 : ℚ) ^ ((e : ℤ) - 52) = (((2 ^ t : ℕ) : ℚ))⁻¹ := by
      rw [show (e - 52 : ℤ) = -(52 - e) by ring, zpow_neg, ← htn, zpow_natCast,
        natCast_two_pow]
    rw [hpow, div_eq_mul_inv]
  · rw [if_neg hle]
    push_neg at hle
    dsimp only
    set e := qlog2p n d with hedef
    set t := (e - 52).toNat with htdef
    have htn : ((t : ℕ) : ℤ) = e - 52 := Int.toNat_of_nonneg (by omega)
    have hdp : 0 < d * 2 ^ t := by positivity
    refine ⟨by norm_num, ?_⟩
    rw [hfl]
    have hz : (2 : ℚ) ^ ((52 : ℤ) - e) = (((2 : ℚ) ^ (t : ℕ)))⁻¹ := by
      rw [show (52 - e : ℤ) = -(e - 52) by ring, zpow_neg, ← htn, zpow_natCast]
    have harg : (n : ℚ) / d * 2 ^ ((52 : ℤ) - e) =
        (n : ℚ) / ((d * 2 ^ t : ℕ) : ℚ) := by
      rw [hz]
      push_cast
      field_simp
    rw [harg, ← rheP_eq _ _ hdp]
    have hpow : (2 : ℚ) ^ ((e : ℤ) - 52) = ((2 ^ t : ℕ) : ℚ) := by
      rw [← htn, zpow_natCast, natCast_two_pow]
    rw [hpow]
    push_cast
    ring

theorem emitCountP_eq : ∀ fuel (n d : ℕ), 0 < d →
    emitCountP fuel n d = emitCount fuel ((n : ℚ) / d) := by
  intro fuel
  induction fuel with
  | zero => intro n d _; rfl
  | succ fuel ih =>
    intro n d hd
    have hd0 : (0 : ℚ) < d := by exact_mod_cast hd
    have hiff : (1 : ℚ) ≤ (n : ℚ) / d ↔ d ≤ n := by
      rw [le_div_iff₀ hd0, one_mul]
      exact_mod_cast Iff.rfl
    rw [emitCountP, emitCount]
    by_cases h : d ≤ n
    · rw [if_pos h, if_pos (hiff.mpr h)]
      have hn : 0 < n := lt_of_lt_of_le hd h
      have hd26 : 0 < 26 * d := by omega
      obtain ⟨hp2, hpv⟩ := flP_eq n (26 * d) hn hd26
      have hdiv : (n : ℚ) / d / 26 = (n : ℚ) / ((26 * d : ℕ) : ℚ) := by
        push_cast
        rw [div_div, mul_comm]
      rw [hdiv, ← hpv]
      have heq1 : ((flP n (26 * d)).1 : ℚ) / ((flP n (26 * d)).2 : ℚ) = 1 ↔
          (flP n (26 * d)).1 = (flP n (26 * d)).2 := by
        rw [div_eq_one_iff_eq (by exact_mod_cast ne_of_gt hp2)]
        exact_mod_cast Iff.rfl
      by_cases he : (flP n (26 * d)).1 = (flP n (26 * d)).2
      · rw [if_pos he, if_pos (heq1.mpr he)]
      · rw [if_neg he, if_neg (fun hc => he (heq1.mp hc))]
        rw [ih _ _ hp2]
    · rw [if_neg h, if_neg (fun hc => h (hiff.mp hc))]

/-- Number of characters the suffix-rendering loop emits for an integer
`fileCount` seed `c`, computed on the executable mirror. -/
def emitCountN (c : ℕ) : ℕ := emitCountP 64 (flP c 1).1 (flP c 1).2

theorem emitCountN_eq (c : ℕ) (hc : 0 < c) :
    emitCountN c = emitCount 64 (fl (c : ℚ)) := by
  unfold emitCountN
  obtain ⟨hp2, hpv⟩ := flP_eq c 1 hc (by norm_num)
  rw [emitCountP_eq 64 _ _ hp2, hpv]
  norm_num

example : emitCountN (26 ^ 11 + 1) = 12 := by decide
example : emitCountN (26 ^ 12 + 1) = 12 := by decide
example : emitCountN (26 ^ 12) = 12 := by decide

theorem emitCount_of_lt_one (fuel : ℕ) (f : ℚ) (h : ¬ (1 ≤ f)) :
    emitCount fuel f = 0 := by
  cases fuel with
  | zero => rfl
  | succ fuel => rw [emitCount, if_neg h]

/-- The emission count is monotone in the seed: a larger `fileCountF` never
produces a narrower suffix. -/
theorem emitCount_mono : ∀ fuel (f g : ℚ), f ≤ g → f ≤ 2 ^ 100 → g ≤ 2 ^ 100 →
    emitCount fuel f ≤ emitCount fuel g := by
  intro fuel
  induction fuel with
  | zero => intro f g _ _ _; exact le_refl 0
  | succ fuel ih =>
    intro f g hfg hf100 hg100
    rw [emitCount, emitCount]
    by_cases hf : 1 ≤ f
    · rw [if_pos hf, if_pos (le_trans hf hfg)]
      have hg : 1 ≤ g := le_trans hf hfg
      have hrf : Rng (f / 26) := rng_div26 hf hf100
      have hrg : Rng (g / 26) := rng_div26 hg hg100
      have hdiv : f / 26 ≤ g / 26 := by linarith
      have hmono : fl (f / 26) ≤ fl (g / 26) := fl_mono hrf hrg hdiv
      have hfb : fl (f / 26) ≤ 2 ^ 100 := by
        have := fl_le_two_mul hrf
        linarith
      have hgb : fl (g / 26) ≤ 2 ^ 100 := by
        have := fl_le_two_mul hrg
        linarith
      by_cases hfe : fl (f / 26) = 1
      · rw [if_pos hfe]
        split
        · exact le_refl 1
        · omega
      · rw [if_neg hfe]
        by_cases hge : fl (g / 26) = 1
        · rw [if_pos hge]
          have hlt : fl (f / 26) < 1 := lt_of_le_of_ne (hge ▸ hmono) hfe
          rw [emitCount_of_lt_one fuel _ (not_le.mpr hlt)]
        · rw [if_neg hge]
          have := ih (fl (f / 26)) (fl (g / 26)) hmono hfb hgb
          omega
    · rw [if_neg hf]
      exact Nat.zero_le _

theorem rng_natCast {k : ℕ} (hk : 0 < k) (hk80 : k ≤ 2 ^ 80) : Rng (k : ℚ) := by
  have hk0 : (0 : ℚ) < k := by exact_mod_cast hk
  have hk1 : (1 : ℚ) ≤ k := by exact_mod_cast hk
  refine ⟨hk0, ?_, ?_⟩
  · nlinarith [hk1]
  · rw [Nat.floor_natCast]
    calc k ≤ 2 ^ 80 := hk80
    _ < 2 ^ 300 := by norm_num

/-- Squeeze rule: the emission count agrees at the two ends of an interval
of integer seeds, so it is constant on that interval. -/
theorem emitCount_squeeze (a b n w : ℕ) (ha : 0 < a) (han : a ≤ n) (hnb : n ≤ b)
    (hb80 : b ≤ 2 ^ 80) (hA : emitCountN a = w) (hB : emitCountN b = w) :
    emitCount 64 (fl (n : ℚ)) = w := by
  have h0n : 0 < n := lt_of_lt_of_le ha han
  have h0b : 0 < b := lt_of_lt_of_le h0n hnb
  have hra : Rng (a : ℚ) := rng_natCast ha (le_trans han (le_trans hnb hb80))
  have hrn : Rng (n : ℚ) := rng_natCast h0n (le_trans hnb hb80)
  have hrb : Rng (b : ℚ) := rng_natCast h0b hb80
  have han' : (a : ℚ) ≤ n := by exact_mod_cast han
  have hnb' : (n : ℚ) ≤ b := by exact_mod_cast hnb
  have hb100 : (b : ℚ) ≤ 2 ^ 100 := by
    calc (b : ℚ) ≤ ((2 ^ 80 : ℕ) : ℚ) := by exact_mod_cast hb80
    _ ≤ 2 ^ 100 := by norm_num
  have hflab : fl (a : ℚ) ≤ fl (n : ℚ) := fl_mono hra hrn han'
  have hflnb : fl (n : ℚ) ≤ fl (b : ℚ) := fl_mono hrn hrb hnb'
  have hb80' : (b : ℚ) ≤ 2 ^ 80 := by exact_mod_cast hb80
  have hstep : (2 : ℚ) * 2 ^ 80 ≤ 2 ^ 100 := by norm_num
  have hba : fl (a : ℚ) ≤ 2 ^ 100 := by
    have := fl_le_two_mul hra
    linarith
  have hbn : fl (n : ℚ) ≤ 2 ^ 100 := by
    have := fl_le_two_mul hrn
    linarith
  have hbb : fl (b : ℚ) ≤ 2 ^ 100 := by
    have := fl_le_two_mul hrb
    linarith
  have h1 : emitCount 64 (fl (a : ℚ)) ≤ emitCount 64 (fl (n : ℚ)) :=
    emitCount_mono 64 _ _ hflab hba hbn
  have h2 : emitCount 64 (fl (n : ℚ)) ≤ emitCount 64 (fl (b : ℚ)) :=
    emitCount_mono 64 _ _ hflnb hbn hbb
  rw [emitCountN_eq a ha] at hA
  rw [emitCountN_eq b h0b] at hB
  omega

/-! ## Digit rendering -/

/-- What the rendering loop does to the index: emit `e` base-26 digits,
least significant first, prepending each to the accumulator. -/
def padDigits : ℕ → ℕ → List ℕ → List ℕ
  | 0, _, acc => acc
  | e + 1, idx, acc => padDigits e (idx / 26) ((97 + idx % 26) :: acc)

/-- Spec-side rendering: the fixed-width base-26 numeral of `idx` over the
bytes `97..122` (`'a'..'z'`), most significant digit first, left-padded
with `97` (`'a'`). -/
def specNumeral : ℕ → ℕ → List ℕ
  | 0, _ => []
  | w + 1, idx => (97 + idx / 26 ^ w % 26) :: specNumeral w idx

theorem specNumeral_succ (e idx : ℕ) :
    specNumeral (e + 1) idx = specNumeral e (idx / 26) ++ [97 + idx % 26] := by
  induction e generalizing idx with
  | zero => simp [specNumeral]
  | succ e ih =>
    show (97 + idx / 26 ^ (e + 1) % 26) :: specNumeral (e + 1) idx =
      ((97 + idx / 26 / 26 ^ e % 26) :: specNumeral e (idx / 26)) ++ [97 + idx % 26]
    rw [ih idx, List.cons_append]
    have hdd : idx / 26 / 26 ^ e = idx / 26 ^ (e + 1) := by
      rw [Nat.div_div_eq_div_mul, ← pow_succ']
    rw [hdd]

theorem padDigits_eq_specNumeral : ∀ e idx acc,
    padDigits e idx acc = specNumeral e idx ++ acc := by
  intro e
  induction e with
  | zero => intro idx acc; rfl
  | succ e ih =>
    intro idx acc
    rw [padDigits, ih, specNumeral_succ, List.append_assoc, List.singleton_append]

theorem specNumeral_length (e idx : ℕ) : (specNumeral e idx).length = e := by
  induction e with
  | zero => rfl
  | succ e ih => rw [specNumeral, List.length_cons, ih]

/-- The rendering loop factors through the emission count: the characters
emitted depend on the index, the number of iterations only on the float
seed. -/
theorem renderLoop_eq : ∀ fuel (f : ℚ) idx acc,
    renderLoop fuel f idx acc = padDigits (emitCount fuel f) idx acc := by
  intro fuel
  induction fuel with
  | zero => intro f idx acc; rfl
  | succ fuel ih =>
    intro f idx acc
    rw [renderLoop, emitCount]
    by_cases h : 1 ≤ f
    · rw [if_pos h, if_pos h]
      by_cases he : fl (f / 26) = 1
      · rw [if_pos he, if_pos he]
        rfl
      · rw [if_neg he, if_neg he, ih]
        rfl
    · rw [if_neg h, if_neg h]
      rfl

/-- `specNumeral` only sees the index modulo `26 ^ w`. -/
theorem specNumeral_mod (w idx : ℕ) :
    specNumeral w idx = specNumeral w (idx % 26 ^ w) := by
  induction w generalizing idx with
  | zero => rfl
  | succ w ih =>
    rw [specNumeral, specNumeral]
    have hpw : 0 < 26 ^ w := by positivity
    have h1 : idx % 26 ^ (w + 1) / 26 ^ w % 26 = idx / 26 ^ w % 26 := by
      have hlt : idx % 26 ^ (w + 1) < 26 ^ (w + 1) := Nat.mod_lt _ (by positivity)
      have hq : idx % 26 ^ (w + 1) / 26 ^ w < 26 := by
        rw [Nat.div_lt_iff_lt_mul hpw]
        calc idx % 26 ^ (w + 1) < 26 ^ (w + 1) := hlt
        _ = 26 * 26 ^ w := by rw [pow_succ']
      rw [Nat.mod_eq_of_lt hq, Nat.div_mod_eq_mod_mul_div, ← pow_succ]
    have h2 : specNumeral w (idx % 26 ^ (w + 1)) = specNumeral w (idx % 26 ^ w) := by
      rw [ih (idx % 26 ^ (w + 1)),
        Nat.mod_mod_of_dvd idx (pow_dvd_pow 26 (Nat.le_succ w))]
    rw [h1, h2, ← ih idx]

/-- Strict monotonicity of fixed-width numerals in lexicographic order. -/
theorem specNumeral_lt : ∀ w i j, i < j → j < 26 ^ w →
    List.Lex (· < ·) (specNumeral w i) (specNumeral w j) := by
  intro w
  induction w with
  | zero => intro i j hij hj; omega
  | succ w ih =>
    intro i j hij hj
    rw [specNumeral, specNumeral]
    have hpw : 0 < 26 ^ w := by positivity
    have hi26 : i / 26 ^ w < 26 := by
      rw [Nat.div_lt_iff_lt_mul hpw]
      calc i < j := hij
      _ < 26 ^ (w + 1) := hj
      _ = 26 * 26 ^ w := by rw [pow_succ']
    have hj26 : j / 26 ^ w < 26 := by
      rw [Nat.div_lt_iff_lt_mul hpw]
      calc j < 26 ^ (w + 1) := hj
      _ = 26 * 26 ^ w := by rw [pow_succ']
    rcases lt_trichotomy (i / 26 ^ w) (j / 26 ^ w) with hlt | heq | hgt
    · apply List.Lex.rel
      rw [Nat.mod_eq_of_lt hi26, Nat.mod_eq_of_lt hj26]
      omega
    · rw [heq]
      apply List.Lex.cons
      rw [specNumeral_mod w i, specNumeral_mod w j]
      have hieq := Nat.div_add_mod i (26 ^ w)
      have hjeq := Nat.div_add_mod j (26 ^ w)
      rw [heq] at hieq
      have hmi : i % 26 ^ w < j % 26 ^ w := by omega
      exact ih _ _ hmi (Nat.mod_lt _ hpw)
    · exfalso
      have : i / 26 ^ w ≤ j / 26 ^ w := Nat.div_le_div_right (le_of_lt hij)
      omega

/-! ## Structure of `genFileName` on the ByBytes/ByLines path -/

theorem wsub_eq (a b : ℕ) (hb : b ≤ a) (ha : a - b < 2 ^ 64) :
    wsub a b = a - b := by
  unfold wsub
  rw [show 2 ^ 64 + a - b = 2 ^ 64 + (a - b) by omega]
  rw [Nat.add_mod_left, Nat.mod_eq_of_lt ha]

/-- The window condition of the Go loop, for windows `1 ≤ t ≤ 12`, is the
plain arithmetic window. -/
theorem windowCond_eq (t index : ℕ) (h1 : 1 ≤ t) (h12 : t ≤ 12) :
    ((wsub (pow26u t) 26 ≤ index ∧ index < wsub (pow26u (t + 1)) 26) ↔
      (26 ^ t - 26 ≤ index ∧ index < 26 ^ (t + 1) - 26)) := by
  have hts : pow26u t = 26 ^ t := by unfold pow26u; rw [if_pos (by omega)]
  have hts1 : pow26u (t + 1) = 26 ^ (t + 1) := by unfold pow26u; rw [if_pos (by omega)]
  have hb1 : (26 : ℕ) ≤ 26 ^ t := by
    calc (26 : ℕ) = 26 ^ 1 := (pow_one 26).symm
    _ ≤ 26 ^ t := Nat.pow_le_pow_right (by norm_num) h1
  have hb2 : (26 : ℕ) ≤ 26 ^ (t + 1) := by
    calc (26 : ℕ) = 26 ^ 1 := (pow_one 26).symm
    _ ≤ 26 ^ (t + 1) := Nat.pow_le_pow_right (by norm_num) (by omega)
  have hlt1 : 26 ^ t - 26 < 2 ^ 64 := by
    have : (26 : ℕ) ^ t ≤ 26 ^ 12 := Nat.pow_le_pow_right (by norm_num) h12
    have h12' : (26 : ℕ) ^ 12 < 2 ^ 64 := by norm_num
    omega
  have hlt2 : 26 ^ (t + 1) - 26 < 2 ^ 64 := by
    have : (26 : ℕ) ^ (t + 1) ≤ 26 ^ 13 := Nat.pow_le_pow_right (by norm_num) (by omega)
    have h13' : (26 : ℕ) ^ 13 < 2 ^ 64 := by norm_num
    omega
  rw [hts, hts1, wsub_eq _ _ hb1 hlt1, wsub_eq _ _ hb2 hlt2]

theorem findWindowGo_some : ∀ fuel start index k, start ≤ k → k < start + fuel →
    (∀ t, start ≤ t → t < k →
      ¬ (wsub (pow26u t) 26 ≤ index ∧ index < wsub (pow26u (t + 1)) 26)) →
    (wsub (pow26u k) 26 ≤ index ∧ index < wsub (pow26u (k + 1)) 26) →
    findWindowGo index fuel start = some k := by
  intro fuel
  induction fuel with
  | zero => intro start index k h1 h2 _ _; omega
  | succ fuel ih =>
    intro start index k h1 h2 hnone hk
    rw [findWindowGo]
    by_cases hs : start = k
    · rw [if_pos (hs ▸ hk)]
      rw [hs]
    · have hlt : start < k := lt_of_le_of_ne h1 hs
      rw [if_neg (hnone start (le_refl _) hlt)]
      exact ih (start + 1) index k (by omega) (by omega)
        (fun t ht1 ht2 => hnone t (by omega) ht2) hk

/-- Emission counts for the window sizes `26 ^ k + 1`, `k = 1 .. 11`: the
float chain emits exactly `k + 1` characters.  (For `k = 12, 13` the
`float64` conversion of `26 ^ k + 1` rounds down to `26 ^ k` and only `k`
characters are emitted; that is the deviation the corrected claims record.) -/
theorem emitWindow (k : ℕ) (h1 : 1 ≤ k) (h11 : k ≤ 11) :
    emitCount 64 (fl ((26 ^ k + 1 : ℕ) : ℚ)) = k + 1 := by
  rw [← emitCountN_eq _ (by positivity)]
  interval_cases k <;> decide

/-- Structure of `genFileName` under `ByBytes`/`ByLines` for an index in
window `k` (`1 ≤ k ≤ 11`): the name is the prefix, `k - 1` letters `'z'`,
then the `(k+1)`-letter numeral of the rebased index. -/
theorem genFileName_window (pfx : List ℕ) (hp : pfx ≠ []) (i c k : ℕ)
    (st : SplitType) (hst : st ≠ SplitType.ByFiles)
    (hk1 : 26 ^ k - 26 ≤ i) (hk2 : i < 26 ^ (k + 1) - 26) (hk11 : k ≤ 11) :
    genFileName pfx i c st =
      Except.ok (pfx ++ (List.replicate (k - 1) 122 ++
        specNumeral (k + 1) (i - (26 ^ k - 26)))) := by
  have hk0 : 1 ≤ k := by
    rcases Nat.eq_zero_or_pos k with h | h
    · subst h
      norm_num at hk2
    · exact h
  have hfind : findWindowGo i 13 1 = some k := by
    apply findWindowGo_some 13 1 i k hk0 (by omega)
    · intro t ht1 ht2
      rw [windowCond_eq t i ht1 (by omega)]
      intro hc
      have hmono : 26 ^ (t + 1) ≤ 26 ^ k := Nat.pow_le_pow_right (by norm_num) (by omega)
      omega
    · rw [windowCond_eq k i hk0 (by omega)]
      exact ⟨hk1, hk2⟩
  have hpow : pow26u k = 26 ^ k := by unfold pow26u; rw [if_pos (by omega)]
  have h26 : (26 : ℕ) ≤ 26 ^ k := by
    calc (26 : ℕ) = 26 ^ 1 := (pow_one 26).symm
    _ ≤ 26 ^ k := Nat.pow_le_pow_right (by norm_num) hk0
  simp only [genFileName]
  rw [if_neg (fun h => hst h.1), if_neg hp, if_neg hst, hfind]
  simp only [hpow]
  rw [if_neg (by omega : ¬ (26 ^ k + 1 < 27))]
  simp only [renderLoop_eq, emitWindow k hk0 hk11, padDigits_eq_specNumeral,
    List.append_nil, List.append_assoc]

theorem emitSmall (n : ℕ) (h1 : 1 ≤ n) (h26 : n ≤ 26) :
    emitCount 64 (fl (n : ℚ)) = 1 :=
  emitCount_squeeze 1 26 n 1 (by norm_num) h1 h26 (by norm_num)
    (by decide) (by decide)

theorem emitBand (w n : ℕ) (hw2 : 2 ≤ w) (hw12 : w ≤ 12)
    (hlo : 26 ^ (w - 1) < n) (hhi : n ≤ 26 ^ w) :
    emitCount 64 (fl (n : ℚ)) = w := by
  have hb80 : (26 : ℕ) ^ w ≤ 2 ^ 80 := by
    calc (26 : ℕ) ^ w ≤ 26 ^ 12 := Nat.pow_le_pow_right (by norm_num) hw12
    _ ≤ 2 ^ 80 := by norm_num
  apply emitCount_squeeze (26 ^ (w - 1) + 1) (26 ^ w) n w (by positivity)
    (by omega) hhi hb80
  · interval_cases w <;> decide
  · interval_cases w <;> decide

/-- Structure of `genFileName` under `ByFiles` with at most 26 files: a
2-letter suffix. -/
theorem genFileName_byfiles_small (pfx : List ℕ) (hp : pfx ≠ []) (idx n : ℕ)
    (hn : 1 ≤ n) (hn26 : n ≤ 26) (hidx : idx < n) :
    genFileName pfx idx n SplitType.ByFiles =
      Except.ok (pfx ++ specNumeral 2 idx) := by
  have hmod : (idx + 1) % 2 ^ 64 = idx + 1 := Nat.mod_eq_of_lt (by omega)
  simp only [genFileName, hmod, true_and, if_true]
  rw [if_neg (by omega : ¬ (n < idx + 1))]
  rw [if_neg hp]
  rw [if_pos (by omega : n < 27)]
  simp only [renderLoop_eq, emitSmall n hn hn26, padDigits_eq_specNumeral]
  rw [← specNumeral_succ]

/-- Structure of `genFileName` under `ByFiles` with `27 ≤ n < 2 ^ 64`
files: the suffix is the numeral of the index rendered in as many letters
as the float loop emits for seed `n`. -/
theorem genFileName_byfiles_wide (pfx : List ℕ) (hp : pfx ≠ []) (idx n e : ℕ)
    (h27 : 27 ≤ n) (hidx : idx < n) (hn64 : n < 2 ^ 64)
    (he : emitCount 64 (fl ((n : ℕ) : ℚ)) = e) :
    genFileName pfx idx n SplitType.ByFiles =
      Except.ok (pfx ++ specNumeral e idx) := by
  have hmod : (idx + 1) % 2 ^ 64 = idx + 1 := Nat.mod_eq_of_lt (by omega)
  simp only [genFileName, hmod, true_and, if_true]
  rw [if_neg (by omega : ¬ (n < idx + 1))]
  rw [if_neg hp]
  rw [if_neg (by omega : ¬ (n < 27))]
  simp only [renderLoop_eq, he, padDigits_eq_specNumeral, List.append_nil]

/-- Structure of `genFileName` under `ByFiles` with `27 ≤ n ≤ 26 ^ 12`
files: the suffix is the `w`-letter numeral of the index, where `w` is the
least width with `26 ^ w ≥ n`. -/
theorem genFileName_byfiles_large (pfx : List ℕ) (hp : pfx ≠ []) (idx n w : ℕ)
    (h27 : 27 ≤ n) (hidx : idx < n) (hw2 : 2 ≤ w) (hw12 : w ≤ 12)
    (hlo : 26 ^ (w - 1) < n) (hhi : n ≤ 26 ^ w) :
    genFileName pfx idx n SplitType.ByFiles =
      Except.ok (pfx ++ specNumeral w idx) := by
  have hn64 : n < 2 ^ 64 := by
    have : (26 : ℕ) ^ w ≤ 26 ^ 12 := Nat.pow_le_pow_right (by norm_num) hw12
    have h12 : (26 : ℕ) ^ 12 < 2 ^ 64 := by norm_num
    omega
  exact genFileName_byfiles_wide pfx hp idx n w h27 hidx hn64
    (emitBand w n hw2 hw12 hlo hhi)

/-- The `ByFiles` bound check of `genFileName`: because Go computes
`index+1` in wrapping `uint64` arithmetic, the check passes (!) for
`index = 2 ^ 64 - 1`. -/
theorem genFileName_byfiles_error (pfx : List ℕ) (idx n : ℕ) (h64 : idx < 2 ^ 64) :
    (genFileName pfx idx n SplitType.ByFiles = Except.error ()) ↔
      (n ≤ idx ∧ idx ≠ 2 ^ 64 - 1) := by
  simp only [genFileName, true_and, if_true]
  by_cases hc : n < (idx + 1) % 2 ^ 64
  · rw [if_pos hc]
    have hne : idx ≠ 2 ^ 64 - 1 := by
      intro h
      rw [h] at hc
      rw [show (2 ^ 64 - 1 + 1 : ℕ) = 2 ^ 64 by norm_num, Nat.mod_self] at hc
      omega
    have hmod : (idx + 1) % 2 ^ 64 = idx + 1 := Nat.mod_eq_of_lt (by omega)
    rw [hmod] at hc
    simp only [true_iff]
    exact ⟨by omega, hne⟩
  · rw [if_neg hc]
    constructor
    · intro h
      exact absurd h (by simp)
    · intro ⟨hni, hne⟩
      exfalso
      have hmod : (idx + 1) % 2 ^ 64 = idx + 1 := Nat.mod_eq_of_lt (by omega)
      rw [hmod] at hc
      omega

/-- Window 12 of the `ByBytes`/`ByLines` path: the numeral has only 12
letters (not 13), because `float64(26 ^ 12 + 1)` rounds down to `26 ^ 12`
and the `fileCountF / 26 == 1` break fires one division early. -/
theorem genFileName_window12 (pfx : List ℕ) (hp : pfx ≠ []) (i c : ℕ)
    (st : SplitType) (hst : st ≠ SplitType.ByFiles)
    (hk1 : 26 ^ 12 - 26 ≤ i) (hk2 : i < 26 ^ 13 - 26) :
    genFileName pfx i c st =
      Except.ok (pfx ++ (List.replicate 11 122 ++
        specNumeral 12 (i - (26 ^ 12 - 26)))) := by
  have he12 : emitCount 64 (fl ((26 ^ 12 + 1 : ℕ) : ℚ)) = 12 := by
    rw [← emitCountN_eq _ (by positivity)]
    decide
  have hfind : findWindowGo i 13 1 = some 12 := by
    apply findWindowGo_some 13 1 i 12 (by omega) (by omega)
    · intro t ht1 ht2
      rw [windowCond_eq t i ht1 (by omega)]
      intro hc
      have hmono : 26 ^ (t + 1) ≤ 26 ^ 12 := Nat.pow_le_pow_right (by norm_num) (by omega)
      omega
    · rw [windowCond_eq 12 i (by omega) (by omega)]
      exact ⟨hk1, hk2⟩
  have hpow : pow26u 12 = 26 ^ 12 := by unfold pow26u; rw [if_pos (by omega)]
  simp only [genFileName]
  rw [if_neg (fun h => hst h.1), if_neg hp, if_neg hst, hfind]
  simp only [hpow]
  rw [if_neg (by norm_num : ¬ (26 ^ 12 + 1 < 27))]
  simp only [renderLoop_eq, he12, padDigits_eq_specNumeral,
    List.append_nil, List.append_assoc]

/-- Lexicographic strict order on byte lists is irreflexive. -/
theorem lex_irrefl_nat : ∀ l : List ℕ, ¬ List.Lex (· < ·) l l := by
  intro l
  induction l with
  | nil => intro h; cases h
  | cons a l ih =>
    intro h
    cases h with
    | cons h => exact ih h
    | rel h => exact lt_irrefl a h

/-- A common prefix preserves lexicographic comparison. -/
theorem lex_append_left {r : ℕ → ℕ → Prop} :
    ∀ (c a b : List ℕ), List.Lex r a b → List.Lex r (c ++ a) (c ++ b) := by
  intro c
  induction c with
  | nil => intro a b h; exact h
  | cons x c ih => intro a b h; exact List.Lex.cons (ih a b h)

/-! ## `parseByteSize` (src/main.go, lines 16–63)

Input strings are byte lists.  The regular expression
`^(\d+)([KMGTPkm]i?B?)?$` is decomposed structurally: the maximal digit
prefix (the class `[KMGTPkm]` contains no digit, so `\d+` being greedy is
equivalent to taking the maximal digit run), then the optional unit. -/

inductive PErr
  | invalidFormat
  | rangeError
  | overflow
deriving DecidableEq

/-- The language of the optional unit group `([KMGTPkm]i?B?)?`.
`75 77 71 84 80 107 109` are `K M G T P k m`; `105` is `i`, `66` is `B`. -/
def unitOk (u : List ℕ) : Bool :=
  match u with
  | [] => true
  | c :: rest =>
    decide (c ∈ ([75, 77, 71, 84, 80, 107, 109] : List ℕ)) &&
    decide (rest = [] ∨ rest = [105] ∨ rest = [66] ∨ rest = [105, 66])

/-- The `switch unit` of `parseByteSize`.  `Except.error ()` is the
`"Ki", "Mi", …` branch that reports an invalid format; a fall-through
(only the empty unit, within the regex language) leaves the multiplier 1. -/
def unitSwitch (u : List ℕ) : Except Unit ℕ :=
  if u = [75, 66] ∨ u = [107, 66] then Except.ok 1000
  else if u = [77, 66] ∨ u = [109, 66] then Except.ok (1000 * 1000)
  else if u = [71, 66] then Except.ok (1000 * 1000 * 1000)
  else if u = [84, 66] then Except.ok (1000 * 1000 * 1000 * 1000)
  else if u = [80, 66] then Except.ok (1000 * 1000 * 1000 * 1000 * 1000)
  else if u = [75] ∨ u = [107] ∨ u = [75, 105, 66] ∨ u = [107, 105, 66] then
    Except.ok 1024
  else if u = [77] ∨ u = [109] ∨ u = [77, 105, 66] ∨ u = [109, 105, 66] then
    Except.ok (1024 * 1024)
  else if u = [71] ∨ u = [71, 105, 66] then Except.ok (1024 * 1024 * 1024)
  else if u = [84] ∨ u = [84, 105, 66] then Except.ok (1024 * 1024 * 1024 * 1024)
  else if u = [80] ∨ u = [80, 105, 66] then
    Except.ok (1024 * 1024 * 1024 * 1024 * 1024)
  else if u = [75, 105] ∨ u = [77, 105] ∨ u = [71, 105] ∨ u = [84, 105] ∨
      u = [80, 105] ∨ u = [107, 105] ∨ u = [109, 105] then Except.error ()
  else Except.ok 1

/-- Numeric value of a digit run, as accumulated by `strconv.ParseUint`. -/
def digitsVal (ds : List ℕ) : ℕ := ds.foldl (fun a c => 10 * a + (c - 48)) 0

/-- `parseByteSize` itself.  `ParseUint` reports a range error exactly when
the numeric value of the digits is `≥ 2 ^ 64`; the final overflow check is
the wrapping-product division test from the source. -/
def parseByteSize (input : List ℕ) : Except PErr ℕ :=
  let digits := input.takeWhile (fun c => decide (48 ≤ c ∧ c ≤ 57))
  let rest := input.dropWhile (fun c => decide (48 ≤ c ∧ c ≤ 57))
  if digits = [] ∨ ¬ (unitOk rest = true) then Except.error PErr.invalidFormat
  else if 2 ^ 64 ≤ digitsVal digits then Except.error PErr.rangeError
  else
    match unitSwitch rest with
    | Except.error _ => Except.error PErr.invalidFormat
    | Except.ok unitVal =>
      if (digitsVal digits * unitVal % 2 ^ 64) / unitVal ≠ digitsVal digits then
        Except.error PErr.overflow
      else Except.ok (digitsVal digits * unitVal % 2 ^ 64)

example : parseByteSize [50, 48, 77, 105, 66] = Except.ok (20 * 1024 * 1024) := by
  decide

example : parseByteSize [49, 75, 105] = Except.error PErr.invalidFormat := by decide

example : parseByteSize [49, 54, 51, 56, 52, 80] = Except.error PErr.overflow := by
  decide

theorem takeWhile_append_of (p : ℕ → Bool) : ∀ (ds rest : List ℕ),
    (∀ c ∈ ds, p c = true) → (∀ c ∈ rest.take 1, p c = false) →
    (ds ++ rest).takeWhile p = ds ∧ (ds ++ rest).dropWhile p = rest := by
  intro ds
  induction ds with
  | nil =>
    intro rest _ h2
    cases rest with
    | nil => exact ⟨rfl, rfl⟩
    | cons c r =>
      have hc := h2 c (by simp)
      simp [List.takeWhile, List.dropWhile, hc]
  | cons d ds ih =>
    intro rest h1 h2
    have hd := h1 d (by simp)
    obtain ⟨ht, hdr⟩ := ih rest (fun c hc => h1 c (by simp [hc])) h2
    constructor
    · simp [List.takeWhile_cons, hd, ht]
    · simp [List.dropWhile_cons, hd, hdr]

/-- The wrapping-product division test of `parseByteSize` detects 64-bit
overflow exactly. -/
theorem overflow_check (s m : ℕ) (hm : 0 < m) :
    ((s * m % 2 ^ 64) / m = s ↔ s * m < 2 ^ 64) := by
  constructor
  · intro h
    by_contra hge
    push_neg at hge
    have hdk := Nat.div_add_mod (s * m) (2 ^ 64)
    have hk1 : 1 ≤ s * m / 2 ^ 64 := (Nat.one_le_div_iff (by norm_num)).mpr hge
    have hlow : s * m % 2 ^ 64 + 2 ^ 64 ≤ s * m := by
      have hmul : 2 ^ 64 ≤ 2 ^ 64 * (s * m / 2 ^ 64) :=
        Nat.le_mul_of_pos_right _ hk1
      omega
    have hmle : s * m ≤ s * m % 2 ^ 64 := by
      have := Nat.div_mul_le_self (s * m % 2 ^ 64) m
      rw [h] at this
      exact this
    omega
  · intro h
    rw [Nat.mod_eq_of_lt h, Nat.mul_div_cancel _ hm]

/-- The valid unit suffixes of the size parser together with their
multipliers: the empty unit, the SI units (`B` only in second position)
and the IEC units, with the lowercase variants the switch accepts. -/
def validUnits : List (List ℕ × ℕ) :=
  [([], 1),
   ([75, 66], 1000), ([107, 66], 1000),
   ([77, 66], 1000 * 1000), ([109, 66], 1000 * 1000),
   ([71, 66], 1000 * 1000 * 1000),
   ([84, 66], 1000 * 1000 * 1000 * 1000),
   ([80, 66], 1000 * 1000 * 1000 * 1000 * 1000),
   ([75], 1024), ([107], 1024), ([75, 105, 66], 1024), ([107, 105, 66], 1024),
   ([77], 1024 * 1024), ([109], 1024 * 1024),
   ([77, 105, 66], 1024 * 1024), ([109, 105, 66], 1024 * 1024),
   ([71], 1024 * 1024 * 1024), ([71, 105, 66], 1024 * 1024 * 1024),
   ([84], 1024 * 1024 * 1024 * 1024), ([84, 105, 66], 1024 * 1024 * 1024 * 1024),
   ([80], 1024 * 1024 * 1024 * 1024 * 1024),
   ([80, 105, 66], 1024 * 1024 * 1024 * 1024 * 1024)]

theorem parseByteSize_valid (ds u : List ℕ) (m : ℕ) (hne : ds ≠ [])
    (hds : ∀ c ∈ ds, 48 ≤ c ∧ c ≤ 57)
    (hhead : ∀ c ∈ u.take 1, ¬ (48 ≤ c ∧ c ≤ 57))
    (hok : unitOk u = true) (hsw : unitSwitch u = Except.ok m) (hm : 0 < m)
    (hsize : digitsVal ds < 2 ^ 64) (hprod : digitsVal ds * m < 2 ^ 64) :
    parseByteSize (ds ++ u) = Except.ok (digitsVal ds * m) := by
  obtain ⟨ht, hd⟩ := takeWhile_append_of (fun c => decide (48 ≤ c ∧ c ≤ 57)) ds u
    (fun c hc => by simpa using hds c hc)
    (fun c hc => by simpa using hhead c hc)
  simp only [parseByteSize]
  rw [ht, hd]
  rw [if_neg (by simp [hne, hok])]
  rw [if_neg (by omega)]
  rw [hsw]
  dsimp only
  rw [if_neg (by
    simp only [ne_eq, not_not]
    rw [overflow_check _ _ hm]
    exact hprod)]
  rw [Nat.mod_eq_of_lt hprod]

theorem parseByteSize_invalid (input : List ℕ)
    (h : input.takeWhile (fun c => decide (48 ≤ c ∧ c ≤ 57)) = [] ∨
      ¬ (unitOk (input.dropWhile (fun c => decide (48 ≤ c ∧ c ≤ 57))) = true)) :
    parseByteSize input = Except.error PErr.invalidFormat := by
  simp only [parseByteSize]
  rw [if_pos h]

theorem parseByteSize_switchErr (ds u : List ℕ) (hne : ds ≠ [])
    (hds : ∀ c ∈ ds, 48 ≤ c ∧ c ≤ 57)
    (hhead : ∀ c ∈ u.take 1, ¬ (48 ≤ c ∧ c ≤ 57))
    (hok : unitOk u = true) (hsw : unitSwitch u = Except.error ())
    (hsize : digitsVal ds < 2 ^ 64) :
    parseByteSize (ds ++ u) = Except.error PErr.invalidFormat := by
  obtain ⟨ht, hd⟩ := takeWhile_append_of (fun c => decide (48 ≤ c ∧ c ≤ 57)) ds u
    (fun c hc => by simpa using hds c hc)
    (fun c hc => by simpa using hhead c hc)
  simp only [parseByteSize]
  rw [ht, hd]
  rw [if_neg (by simp [hne, hok])]
  rw [if_neg (by omega)]
  rw [hsw]

theorem parseByteSize_barePrefix (ds u : List ℕ) (hne : ds ≠ [])
    (hds : ∀ c ∈ ds, 48 ≤ c ∧ c ≤ 57)
    (hu : u ∈ ([[75, 105], [107, 105], [77, 105], [109, 105], [71, 105],
      [84, 105], [80, 105]] : List (List ℕ)))
    (hsize : digitsVal ds < 2 ^ 64) :
    parseByteSize (ds ++ u) = Except.error PErr.invalidFormat := by
  fin_cases hu <;>
    exact parseByteSize_switchErr ds _ hne hds (by decide) (by decide) (by decide)
      hsize

theorem parseByteSize_overflow_iff (ds u : List ℕ) (m : ℕ) (hne : ds ≠ [])
    (hds : ∀ c ∈ ds, 48 ≤ c ∧ c ≤ 57)
    (hhead : ∀ c ∈ u.take 1, ¬ (48 ≤ c ∧ c ≤ 57))
    (hok : unitOk u = true) (hsw : unitSwitch u = Except.ok m) (hm : 0 < m)
    (hsize : digitsVal ds < 2 ^ 64) :
    (parseByteSize (ds ++ u) = Except.error PErr.overflow ↔
      2 ^ 64 ≤ digitsVal ds * m) := by
  obtain ⟨ht, hd⟩ := takeWhile_append_of (fun c => decide (48 ≤ c ∧ c ≤ 57)) ds u
    (fun c hc => by simpa using hds c hc)
    (fun c hc => by simpa using hhead c hc)
  simp only [parseByteSize]
  rw [ht, hd]
  rw [if_neg (by simp [hne, hok])]
  rw [if_neg (by omega)]
  rw [hsw]
  dsimp only
  by_cases hc : digitsVal ds * m < 2 ^ 64
  · rw [if_neg (by
      simp only [ne_eq, not_not]
      rw [overflow_check _ _ hm]
      exact hc)]
    constructor
    · intro h
      exact absurd h (by simp)
    · intro h
      omega
  · rw [if_pos (by
      simp only [ne_eq]
      rw [overflow_check _ _ hm]
      omega)]
    simp only [true_iff]
    omega

/-! ## `splitByFile` (src/main.go, lines 168–203)

The strategy buffers the whole input, computes the base chunk size and
remainder, and loops `i = 0 .. count-1`, reading `byteCount` bytes per
file (`byteCount + byteRemain` for the last).  The loop is modelled with
the iterations-remaining count as the recursion argument (`k = count - i`;
`k = 1` is the last iteration).  `bytes.Buffer.Read` returns `io.EOF`
exactly when the request is nonempty and the buffer is drained, in which
case the Go loop breaks and creates no further file; a zero-length request
succeeds and produces an empty file. -/

def sbfLoop (q r : ℕ) : ℕ → List ℕ → List (List ℕ)
  | 0, _ => []
  | k + 1, rem =>
    if 0 < (if k = 0 then q + r else q) ∧ rem = [] then []
    else
      rem.take (if k = 0 then q + r else q) ::
        sbfLoop q r k (rem.drop (if k = 0 then q + r else q))

def splitByFile (input : List ℕ) (n : ℕ) : List (List ℕ) :=
  sbfLoop (input.length / n) (input.length % n) n input

theorem sbfLoop_spec : ∀ (k q r : ℕ) (rem : List ℕ), 1 ≤ k →
    rem.length = k * q + r →
    sbfLoop q r k rem =
      ((List.range (k - 1)).map (fun i => (rem.drop (i * q)).take q)) ++
        [rem.drop ((k - 1) * q)] := by
  intro k
  induction k with
  | zero => intro q r rem h _; omega
  | succ k ih =>
    intro q r rem _ hlen
    cases k with
    | zero =>
      rw [sbfLoop]
      simp only [reduceIte]
      rw [if_neg (by
        rintro ⟨hb, hrem⟩
        rw [hrem] at hlen
        simp only [List.length_nil] at hlen
        omega)]
      have htk : rem.take (q + r) = rem := by
        apply List.take_of_length_le
        omega
      simp [sbfLoop, htk]
    | succ k =>
      rw [sbfLoop]
      simp only [if_neg (Nat.succ_ne_zero k)]
      rw [if_neg (by
        rintro ⟨hb, hrem⟩
        rw [hrem] at hlen
        simp only [List.length_nil] at hlen
        have hA : (k + 1 + 1) * q = 0 := by omega
        have hq : q = 0 := by
          rcases Nat.mul_eq_zero.mp hA with h | h
          · omega
          · exact h
        omega)]
      have hqle : q ≤ (k + 1 + 1) * q := Nat.le_mul_of_pos_left q (by omega)
      have hdl : (rem.drop q).length = (k + 1) * q + r := by
        rw [List.length_drop]
        have hexp : (k + 1 + 1) * q = (k + 1) * q + q := by ring
        omega
      rw [ih q r (rem.drop q) (by omega) hdl]
      have hmap : (List.range (k + 1 - 1)).map
            (fun i => ((rem.drop q).drop (i * q)).take q) =
          (List.range k).map (fun i => (rem.drop ((i + 1) * q)).take q) := by
        apply List.map_congr_left
        intro i _
        rw [List.drop_drop]
        congr 2
        ring
      rw [hmap]
      have hrange : (List.range (k + 2 - 1)).map
            (fun i => (rem.drop (i * q)).take q) =
          rem.take q ::
            (List.range k).map (fun i => (rem.drop ((i + 1) * q)).take q) := by
        rw [show k + 2 - 1 = k + 1 by omega, List.range_succ_eq_map]
        simp [Function.comp, Nat.succ_eq_add_one]
      rw [hrange]
      have hlast : (rem.drop q).drop ((k + 1 - 1) * q) = rem.drop ((k + 2 - 1) * q) := by
        rw [List.drop_drop]
        congr 1
        rw [show k + 1 - 1 = k from rfl, show k + 2 - 1 = k + 1 from rfl]
        ring
      rw [hlast]
      simp

theorem sbfLoop_join : ∀ (k q r : ℕ) (rem : List ℕ), 1 ≤ k →
    rem.length = k * q + r → (sbfLoop q r k rem).join = rem := by
  intro k
  induction k with
  | zero => intro q r rem h _; omega
  | succ k ih =>
    intro q r rem _ hlen
    cases k with
    | zero =>
      rw [sbfLoop]
      simp only [reduceIte]
      rw [if_neg (by
        rintro ⟨hb, hrem⟩
        rw [hrem] at hlen
        simp only [List.length_nil] at hlen
        omega)]
      have htk : rem.take (q + r) = rem := by
        apply List.take_of_length_le
        omega
      simp [sbfLoop, htk]
    | succ k =>
      rw [sbfLoop]
      simp only [if_neg (Nat.succ_ne_zero k)]
      rw [if_neg (by
        rintro ⟨hb, hrem⟩
        rw [hrem] at hlen
        simp only [List.length_nil] at hlen
        have hA : (k + 1 + 1) * q = 0 := by omega
        have hq : q = 0 := by
          rcases Nat.mul_eq_zero.mp hA with h | h
          · omega
          · exact h
        omega)]
      have hqle : q ≤ (k + 1 + 1) * q := Nat.le_mul_of_pos_left q (by omega)
      have hdl : (rem.drop q).length = (k + 1) * q + r := by
        rw [List.length_drop]
        have hexp : (k + 1 + 1) * q = (k + 1) * q + q := by ring
        omega
      rw [show (rem.take q :: sbfLoop q r (k + 1) (rem.drop q)).join =
          rem.take q ++ (sbfLoop q r (k + 1) (rem.drop q)).join from rfl]
      rw [ih q r (rem.drop q) (by omega) hdl, List.take_append_drop]

/-! ## `splitByLine` (src/main.go, lines 128–166)

The reading loop is modelled with explicit oracles for the results of the
`os.File.Write` and `createOutputFile` calls (`none` = success), numbered
in call order, so that error propagation can be stated.  A failed write
writes nothing.  `bufio.ReadBytes('\n')` returns the bytes up to and
including the first newline, or—at end of stream—all remaining bytes
together with `io.EOF`.  Note the EOF branch: the Go code assigns the
write error to `err` and then `break`s, so the function returns `nil`
regardless (`_, err = outputFile.Write(line); break`).  The first
component of the result is the list of contents of the files created, in
creation order. -/

def sblLoop (n : ℕ) (wr cr : ℕ → Option Unit) :
    ℕ → List ℕ → ℕ → ℕ → ℕ → List (List ℕ) → List ℕ →
    List (List ℕ) × Except Unit Unit
  | 0, _, _, _, _, closed, cur => (closed ++ [cur], Except.ok ())
  | fuel + 1, rem, lineCount, fileIndex, wc, closed, cur =>
    match rem.dropWhile (fun c => decide (c ≠ 10)) with
    | [] =>
      match wr wc with
      | some _ => (closed ++ [cur], Except.ok ())
      | none => (closed ++ [cur ++ rem], Except.ok ())
    | _ :: rest =>
      match wr wc with
      | some _ => (closed ++ [cur], Except.error ())
      | none =>
        if (lineCount + 1) % n = 0 then
          match cr (fileIndex + 1) with
          | some _ =>
              (closed ++ [cur ++ (rem.takeWhile (fun c => decide (c ≠ 10)) ++ [10])],
                Except.error ())
          | none =>
              sblLoop n wr cr fuel rest (lineCount + 1) (fileIndex + 1) (wc + 1)
                (closed ++ [cur ++ (rem.takeWhile (fun c => decide (c ≠ 10)) ++ [10])])
                []
        else
          sblLoop n wr cr fuel rest (lineCount + 1) fileIndex (wc + 1) closed
            (cur ++ (rem.takeWhile (fun c => decide (c ≠ 10)) ++ [10]))

def splitByLineE (n : ℕ) (input : List ℕ) (wr cr : ℕ → Option Unit) :
    List (List ℕ) × Except Unit Unit :=
  match cr 0 with
  | some _ => ([], Except.error ())
  | none => sblLoop n wr cr (input.length + 1) input 0 0 0 [] []

/-- The failure-free run of `splitByLine`: the file contents produced. -/
def splitByLine (n : ℕ) (input : List ℕ) : List (List ℕ) :=
  (splitByLineE n input (fun _ => none) (fun _ => none)).1

example : splitByLine 2 [97, 10, 98, 10, 99, 10, 100, 10, 101, 10] =
    [[97, 10, 98, 10], [99, 10, 100, 10], [101, 10]] := by decide

example : splitByLine 1 [] = [[]] := by decide

example : splitByLineE 1 [97] (fun _ => some ()) (fun _ => none) =
    ([[]], Except.ok ()) := by decide

/-- Spec-side splitting of a byte stream into newline-terminated lines and
a final tail without a newline (possibly empty). -/
def linesNL : List ℕ → List (List ℕ) × List ℕ
  | [] => ([], [])
  | c :: rest =>
    if c = 10 then ([10] :: (linesNL rest).1, (linesNL rest).2)
    else
      match linesNL rest with
      | ([], t) => ([], c :: t)
      | (l :: ls, t) => ((c :: l) :: ls, t)

/-- Spec-side accumulation of lines into files: each line goes to the
current file; after every `n`-th line the file is closed and a fresh one
opened; the tail is written to the current file at end of stream. -/
def chunkFold (n : ℕ) : ℕ → List ℕ → List (List ℕ) → List ℕ → List (List ℕ)
  | _, cur, [], t => [cur ++ t]
  | lc, cur, l :: ls, t =>
    if (lc + 1) % n = 0 then (cur ++ l) :: chunkFold n (lc + 1) [] ls t
    else chunkFold n (lc + 1) (cur ++ l) ls t

theorem linesNL_no_nl : ∀ rem : List ℕ,
    rem.dropWhile (fun c => decide (c ≠ 10)) = [] → linesNL rem = ([], rem) := by
  intro rem
  induction rem with
  | nil => intro _; rfl
  | cons c rest ih =>
    intro h
    by_cases hc : c = 10
    · exfalso
      rw [List.dropWhile_cons] at h
      simp [hc] at h
    · rw [List.dropWhile_cons] at h
      rw [if_pos (by simpa using hc)] at h
      rw [linesNL, if_neg hc, ih h]

theorem linesNL_with_nl : ∀ (rem : List ℕ) (d : ℕ) (rest : List ℕ),
    rem.dropWhile (fun c => decide (c ≠ 10)) = d :: rest →
    linesNL rem = ((rem.takeWhile (fun c => decide (c ≠ 10)) ++ [10]) ::
      (linesNL rest).1, (linesNL rest).2) := by
  intro rem
  induction rem with
  | nil => intro d rest h; simp [List.dropWhile] at h
  | cons c rem' ih =>
    intro d rest h
    by_cases hc : c = 10
    · rw [List.dropWhile_cons] at h
      rw [if_neg (by simpa using hc)] at h
      injection h with h1 h2
      subst h2
      rw [List.takeWhile_cons]
      rw [if_neg (by simpa using hc)]
      rw [linesNL, if_pos hc]
      simp
    · rw [List.dropWhile_cons] at h
      rw [if_pos (by simpa using hc)] at h
      have := ih d rest h
      rw [List.takeWhile_cons]
      rw [if_pos (by simpa using hc)]
      rw [linesNL, if_neg hc, this]
      simp

theorem sblLoop_pure (n : ℕ) : ∀ fuel rem lc fi wc closed cur,
    rem.length < fuel →
    sblLoop n (fun _ => none) (fun _ => none) fuel rem lc fi wc closed cur =
      (closed ++ chunkFold n lc cur (linesNL rem).1 (linesNL rem).2, Except.ok ()) := by
  intro fuel
  induction fuel with
  | zero => intro rem lc fi wc closed cur h; omega
  | succ fuel ih =>
    intro rem lc fi wc closed cur h
    match hdw : rem.dropWhile (fun c => decide (c ≠ 10)) with
    | [] =>
      rw [linesNL_no_nl rem hdw]
      rw [sblLoop, hdw]
      rfl
    | d :: rest =>
      rw [linesNL_with_nl rem d rest hdw]
      have hlen : rest.length < fuel := by
        have h1 : (rem.dropWhile (fun c => decide (c ≠ 10))).length ≤ rem.length := by
          have := List.takeWhile_append_dropWhile (fun c => decide (c ≠ 10)) rem
          calc (rem.dropWhile (fun c => decide (c ≠ 10))).length
              ≤ (rem.takeWhile (fun c => decide (c ≠ 10))).length
                + (rem.dropWhile (fun c => decide (c ≠ 10))).length := by omega
            _ = rem.length := by conv_rhs => rw [← this]
                                 rw [List.length_append]
        rw [hdw] at h1
        simp at h1
        omega
      rw [sblLoop, hdw]
      by_cases hm : (lc + 1) % n = 0
      · rw [chunkFold, if_pos hm]
        show (if (lc + 1) % n = 0 then _ else _) = _
        rw [if_pos hm]
        rw [ih rest (lc + 1) (fi + 1) (wc + 1) _ [] hlen]
        simp
      · rw [chunkFold, if_neg hm]
        show (if (lc + 1) % n = 0 then _ else _) = _
        rw [if_neg hm]
        rw [ih rest (lc + 1) fi (wc + 1) closed _ hlen]

theorem splitByLine_eq_chunkFold (n : ℕ) (input : List ℕ) :
    splitByLine n input = chunkFold n 0 [] (linesNL input).1 (linesNL input).2 := by
  rw [splitByLine, splitByLineE]
  show (sblLoop n _ _ (input.length + 1) input 0 0 0 [] []).1 = _
  rw [sblLoop_pure n (input.length + 1) input 0 0 0 [] [] (by omega)]
  simp

theorem chunkFold_ne_nil : ∀ (ls : List (List ℕ)) (n lc : ℕ) (cur t : List ℕ),
    chunkFold n lc cur ls t ≠ [] := by
  intro ls
  induction ls with
  | nil => intro n lc cur t; simp [chunkFold]
  | cons l ls ih =>
    intro n lc cur t
    rw [chunkFold]
    by_cases hm : (lc + 1) % n = 0
    · rw [if_pos hm]; simp
    · rw [if_neg hm]; exact ih n (lc + 1) (cur ++ l) t

theorem chunkFold_len : ∀ (ls : List (List ℕ)) (n lc : ℕ) (cur t : List ℕ), 1 ≤ n →
    (chunkFold n lc cur ls t).length = ((lc + ls.length) / n - lc / n) + 1 := by
  intro ls
  induction ls with
  | nil => intro n lc cur t hn; simp [chunkFold]
  | cons l ls ih =>
    intro n lc cur t hn
    have hsd : (lc + 1) / n = lc / n + if n ∣ lc + 1 then 1 else 0 := Nat.succ_div lc n
    rw [List.length_cons, show lc + (ls.length + 1) = (lc + 1) + ls.length by ring,
      chunkFold]
    by_cases hm : (lc + 1) % n = 0
    · rw [if_pos hm, List.length_cons, ih n (lc + 1) [] t hn]
      rw [if_pos (Nat.dvd_of_mod_eq_zero hm)] at hsd
      have hA : (lc + 1) / n ≤ (lc + 1 + ls.length) / n :=
        Nat.div_le_div_right (by omega)
      rw [hsd] at hA
      rw [hsd]
      revert hA
      generalize (lc + 1 + ls.length) / n = A
      generalize lc / n = B
      intro hA
      omega
    · rw [if_neg hm, ih n (lc + 1) (cur ++ l) t hn]
      have hnd : ¬ n ∣ lc + 1 := by
        intro hd
        obtain ⟨k, hk⟩ := hd
        exact hm (by rw [hk]; exact Nat.mul_mod_right n k)
      rw [if_neg hnd] at hsd
      rw [hsd]
      simp

theorem chunkFold_last_of_dvd : ∀ (ls : List (List ℕ)) (n lc : ℕ) (cur t : List ℕ),
    1 ≤ n → ls ≠ [] → (lc + ls.length) % n = 0 →
    (chunkFold n lc cur ls t).getLast? = some t := by
  intro ls
  induction ls with
  | nil => intro n lc cur t hn hne hd; exact absurd rfl hne
  | cons l ls ih =>
    intro n lc cur t hn hne hd
    match ls with
    | [] =>
      simp at hd
      rw [chunkFold, if_pos hd]
      rw [chunkFold]
      simp
    | l' :: ls' =>
      have hd' : (lc + 1 + (l' :: ls').length) % n = 0 := by
        rw [show lc + 1 + (l' :: ls').length = lc + (l :: l' :: ls').length by simp; ring]
        exact hd
      rw [chunkFold]
      by_cases hm : (lc + 1) % n = 0
      · rw [if_pos hm]
        have hnn := chunkFold_ne_nil (l' :: ls') n (lc + 1) [] t
        obtain ⟨x, xs, hx⟩ := List.exists_cons_of_ne_nil hnn
        rw [hx, List.getLast?_cons_cons, ← hx]
        exact ih n (lc + 1) [] t hn (by simp) hd'
      · rw [if_neg hm]
        exact ih n (lc + 1) (cur ++ l) t hn (by simp) hd'

/-! ## Helper lemmas for the claim theorems -/

theorem window_exists : ∀ (m i : ℕ), 1 ≤ m → i < 26 ^ (m + 1) - 26 →
    ∃ k, 1 ≤ k ∧ k ≤ m ∧ 26 ^ k - 26 ≤ i ∧ i < 26 ^ (k + 1) - 26 := by
  intro m
  induction m with
  | zero => intro i h0 _; omega
  | succ m ih =>
    intro i _ hi
    by_cases h0 : m = 0
    · subst h0
      exact ⟨1, le_refl 1, le_refl 1, by norm_num, hi⟩
    · by_cases hc : i < 26 ^ (m + 1) - 26
      · obtain ⟨k, h1, h2, h3, h4⟩ := ih i (by omega) hc
        exact ⟨k, h1, by omega, h3, h4⟩
      · exact ⟨m + 1, by omega, le_refl _, by omega, hi⟩

theorem width_exists : ∀ (m n : ℕ), 2 ≤ m → 26 < n → n ≤ 26 ^ m →
    ∃ w, 2 ≤ w ∧ w ≤ m ∧ 26 ^ (w - 1) < n ∧ n ≤ 26 ^ w := by
  intro m
  induction m with
  | zero => intro n h _ _; omega
  | succ m ih =>
    intro n hm h26 hn
    by_cases h0 : m ≤ 1
    · have hm1 : m = 1 := by omega
      subst hm1
      exact ⟨2, le_refl 2, le_refl 2, by simpa using h26, hn⟩
    · by_cases hc : n ≤ 26 ^ m
      · obtain ⟨w, h1, h2, h3, h4⟩ := ih n (by omega) h26 hc
        exact ⟨w, h1, by omega, h3, h4⟩
      · refine ⟨m + 1, by omega, le_refl _, ?_, hn⟩
        rw [Nat.add_sub_cancel]
        omega

/-- Within one window, the rendered names are strictly increasing. -/
theorem window_lex_same (k i j : ℕ) (hi : 26 ^ k - 26 ≤ i) (hij : i < j)
    (hj : j < 26 ^ (k + 1) - 26) :
    List.Lex (· < ·)
      (List.replicate (k - 1) 122 ++ specNumeral (k + 1) (i - (26 ^ k - 26)))
      (List.replicate (k - 1) 122 ++ specNumeral (k + 1) (j - (26 ^ k - 26))) := by
  apply lex_append_left
  apply specNumeral_lt
  · omega
  · have h1 : (26 : ℕ) ^ (k + 1) = 26 * 26 ^ k := pow_succ' 26 k
    have h2 : (1 : ℕ) ≤ 26 ^ k := Nat.one_le_pow _ _ (by norm_num)
    omega

/-- Across windows, a name of an earlier window precedes any name of a
later window: after the common run of `'z'`s, the earlier name shows a
digit `≤ 'y'` where the later name shows another `'z'`. -/
theorem window_lex_cross (k1 k2 r1 : ℕ) (N2 : List ℕ) (hk1 : 1 ≤ k1)
    (hk : k1 < k2) (hr : r1 < 25 * 26 ^ k1) :
    List.Lex (· < ·)
      (List.replicate (k1 - 1) 122 ++ specNumeral (k1 + 1) r1)
      (List.replicate (k2 - 1) 122 ++ N2) := by
  have hrep : List.replicate (k2 - 1) 122 =
      List.replicate (k1 - 1) 122 ++ List.replicate (k2 - k1) (122 : ℕ) := by
    rw [← List.replicate_add]
    congr 1
    omega
  rw [hrep, List.append_assoc]
  apply lex_append_left
  rw [show k2 - k1 = (k2 - k1 - 1) + 1 by omega, List.replicate_succ]
  rw [specNumeral]
  apply List.Lex.rel
  have hd : r1 / 26 ^ k1 < 25 := by
    rw [Nat.div_lt_iff_lt_mul (by positivity)]
    omega
  revert hd
  generalize r1 / 26 ^ k1 = d
  intro hd
  omega

/-! ## The claims -/

/-- C3: for every input of total size `S` and every file count `n ≥ 1`,
`splitByFile` produces exactly `n` files; each of the first `n - 1` holds
exactly `S / n` bytes, the last holds `S - (S / n) * (n - 1)` bytes (base
size plus the whole remainder), and the concatenation of the files in
order is byte-for-byte the input. -/
theorem C3_splitByFile_partition (input : List ℕ) (n : ℕ) (hn : 1 ≤ n) :
    (splitByFile input n).length = n ∧
    (∀ i, i < n - 1 → ∃ f, (splitByFile input n)[i]? = some f ∧
      f.length = input.length / n) ∧
    (∃ g, (splitByFile input n).getLast? = some g ∧
      g.length = input.length - (input.length / n) * (n - 1)) ∧
    (splitByFile input n).join = input := by
  have hlen : input.length = n * (input.length / n) + input.length % n :=
    (Nat.div_add_mod input.length n).symm
  have hspec := sbfLoop_spec n (input.length / n) (input.length % n) input hn hlen
  have hjoin := sbfLoop_join n (input.length / n) (input.length % n) input hn hlen
  refine ⟨?_, ?_, ?_, ?_⟩
  · rw [splitByFile, hspec]
    simp
    omega
  · intro i hi
    refine ⟨(input.drop (i * (input.length / n))).take (input.length / n), ?_, ?_⟩
    · rw [splitByFile, hspec]
      rw [List.getElem?_append]
      rw [if_pos (by simpa using hi)]
      simp [hi]
    · rw [List.length_take, List.length_drop]
      have hmul : (i + 1) * (input.length / n) ≤ n * (input.length / n) :=
        Nat.mul_le_mul_right _ (by omega)
      have hexp : (i + 1) * (input.length / n) =
          i * (input.length / n) + input.length / n := by ring
      omega
  · refine ⟨input.drop ((n - 1) * (input.length / n)), ?_, ?_⟩
    · rw [splitByFile, hspec, List.getLast?_concat]
    · rw [List.length_drop, Nat.mul_comm]
  · rw [splitByFile]
    exact hjoin

theorem C3_splitByFile_partition_witness :
    (1 ≤ 2) ∧ (splitByFile [1, 2, 3, 4, 5] 2).join = [1, 2, 3, 4, 5] :=
  ⟨by decide, (C3_splitByFile_partition [1, 2, 3, 4, 5] 2 (by decide)).2.2.2⟩

/-- C4: under `ByLines(n)`, `n ≥ 1`, the run equals the spec-side line
chunker: the first file exists even for empty input (one empty output
file); each newline-terminated line goes to the current file, after every
`n`-th line the file rolls over, and a final dangling run without a
newline is written to the current file.  In particular `"a\nb\nc\nd\ne\n"`
with `n = 2` and prefix `"x"` yields `xaa = "a\nb\n"`, `xab = "c\nd\n"`,
`xac = "e\n"`. -/
theorem C4_splitByLine_refines (n : ℕ) (hn : 1 ≤ n) (input : List ℕ) :
    splitByLine n input = chunkFold n 0 [] (linesNL input).1 (linesNL input).2 ∧
    splitByLine n [] = [[]] ∧
    splitByLine 2 [97, 10, 98, 10, 99, 10, 100, 10, 101, 10] =
      [[97, 10, 98, 10], [99, 10, 100, 10], [101, 10]] ∧
    genFileName [120] 0 0 SplitType.ByLines = Except.ok [120, 97, 97] ∧
    genFileName [120] 1 0 SplitType.ByLines = Except.ok [120, 97, 98] ∧
    genFileName [120] 2 0 SplitType.ByLines = Except.ok [120, 97, 99] := by
  refine ⟨splitByLine_eq_chunkFold n input, rfl, by decide, ?_, ?_, ?_⟩
  all_goals
    rw [genFileName_window [120] (by decide) _ 0 1 SplitType.ByLines (by decide)
      (by norm_num) (by norm_num) (by norm_num)]
    decide

theorem C4_splitByLine_refines_witness :
    (1 ≤ 2) ∧ splitByLine 2 [97, 10] =
      chunkFold 2 0 [] (linesNL [97, 10]).1 (linesNL [97, 10]).2 :=
  ⟨by decide, (C4_splitByLine_refines 2 (by decide) [97, 10]).1⟩

/-- C10: under `ByLines(n)`, an input of exactly `m * n` newline-terminated
lines (`m ≥ 1`, no dangling tail) produces `m + 1` output files, not `m`:
the rollover after the last line eagerly opens file index `m`, which stays
empty because end of stream follows immediately. -/
theorem C10_extra_empty_file (n m : ℕ) (input : List ℕ) (hn : 1 ≤ n) (hm : 1 ≤ m)
    (hl : (linesNL input).1.length = m * n) (ht : (linesNL input).2 = []) :
    (splitByLine n input).length = m + 1 ∧
    (splitByLine n input).getLast? = some [] := by
  constructor
  · rw [splitByLine_eq_chunkFold, chunkFold_len (linesNL input).1 n 0 [] _ hn, hl]
    rw [Nat.zero_add, Nat.zero_div, Nat.mul_div_cancel _ (by omega), Nat.sub_zero]
  · rw [splitByLine_eq_chunkFold, ht]
    refine chunkFold_last_of_dvd (linesNL input).1 n 0 [] [] hn ?_ ?_
    · exact List.ne_nil_of_length_pos (by rw [hl]; exact Nat.mul_pos hm hn)
    · rw [Nat.zero_add, hl]
      exact Nat.mul_mod_left m n

theorem C10_extra_empty_file_witness :
    (1 ≤ 2 ∧ 1 ≤ 1) ∧ (splitByLine 2 [97, 10, 98, 10]).length = 1 + 1 ∧
      (splitByLine 2 [97, 10, 98, 10]).getLast? = some [] :=
  ⟨⟨by decide, by decide⟩,
    C10_extra_empty_file 2 1 [97, 10, 98, 10] (by decide) (by decide) (by decide)
      (by decide)⟩

/-- C9: the claim that every write error is returned fails at end of
stream under `ByLines`: the Go code assigns the final dangling-line write
error and `break`s without checking it (`_, err = outputFile.Write(line);
break` then `return nil`).  With the single write failing on input `"a"`,
`n = 1`, the run reports success and the byte is silently lost (first
conjunct), while the same run with the write succeeding keeps the byte
(second conjunct); a failing mid-stream write (third conjunct) is
propagated as an error, so the deviation is specific to the final write. -/
theorem C9_final_write_error_swallowed :
    splitByLineE 1 [97] (fun _ => some ()) (fun _ => none) =
      ([[]], Except.ok ()) ∧
    splitByLineE 1 [97] (fun _ => none) (fun _ => none) =
      ([[97]], Except.ok ()) ∧
    splitByLineE 1 [97, 10, 98] (fun k => if k = 0 then some () else none)
      (fun _ => none) = ([[]], Except.error ()) := by decide

/-- C5 counterexample: the original claim admits the bare SI unit `"B"`,
but the regular expression `^(\d+)([KMGTPkm]i?B?)?$` has no branch for a
unit starting with `B`: `parseByteSize "10B"` is an invalid-format error,
not `10`. -/
theorem C5_cex_bare_B :
    parseByteSize [49, 48, 66] = Except.error PErr.invalidFormat ∧
    parseByteSize [49, 48, 66] ≠ Except.ok 10 := by decide

/-- C5: `parseByteSize` on digits followed by a valid optional unit
returns the digits times the unit multiplier, where the valid units and
multipliers are exactly those of `validUnits` (no unit: 1; `KB`/`MB`/
`GB`/`TB`/`PB` with lowercase `k`/`m` variants: powers of 1000; bare
`K`/`M`/`G`/`T`/`P`, lowercase `k`/`m`, and the `iB` forms: powers of
1024); a multiplier prefix with `i` but without the final `B` (such as
`Ki`) is an invalid-format error; in particular `"20MiB"` parses to
`20 * 1024 * 1024` and `"1Ki"` is rejected. -/
theorem C5_parse_reference (ds u : List ℕ) (m : ℕ) (hne : ds ≠ [])
    (hds : ∀ c ∈ ds, 48 ≤ c ∧ c ≤ 57) (hmem : (u, m) ∈ validUnits)
    (hsize : digitsVal ds < 2 ^ 64) (hprod : digitsVal ds * m < 2 ^ 64) :
    parseByteSize (ds ++ u) = Except.ok (digitsVal ds * m) ∧
    (∀ v, v ∈ ([[75, 105], [107, 105], [77, 105], [109, 105], [71, 105],
        [84, 105], [80, 105]] : List (List ℕ)) →
      parseByteSize (ds ++ v) = Except.error PErr.invalidFormat) ∧
    parseByteSize [50, 48, 77, 105, 66] = Except.ok (20 * 1024 * 1024) ∧
    parseByteSize [49, 75, 105] = Except.error PErr.invalidFormat := by
  refine ⟨?_, ?_, by decide, by decide⟩
  · fin_cases hmem <;>
      exact parseByteSize_valid ds _ _ hne hds (by decide) (by decide) (by decide)
        (by decide) hsize hprod
  · intro v hv
    exact parseByteSize_barePrefix ds v hne hds hv hsize

theorem C5_parse_reference_witness :
    ([50, 48] : List ℕ) ≠ [] ∧
    parseByteSize ([50, 48] ++ [77, 105, 66]) =
      Except.ok (digitsVal [50, 48] * (1024 * 1024)) :=
  ⟨by decide,
    (C5_parse_reference [50, 48] [77, 105, 66] (1024 * 1024) (by decide)
      (by decide) (by decide) (by decide) (by decide)).1⟩

/-- C6: for digits with a valid unit of multiplier `m`, `parseByteSize`
fails with `overflow` exactly when the true product is at least `2 ^ 64`:
the wrapping-product division check is sound and complete. -/
theorem C6_overflow_exact (ds u : List ℕ) (m : ℕ) (hne : ds ≠ [])
    (hds : ∀ c ∈ ds, 48 ≤ c ∧ c ≤ 57) (hmem : (u, m) ∈ validUnits)
    (hsize : digitsVal ds < 2 ^ 64) :
    (parseByteSize (ds ++ u) = Except.error PErr.overflow ↔
      2 ^ 64 ≤ digitsVal ds * m) := by
  fin_cases hmem <;>
    exact parseByteSize_overflow_iff ds _ _ hne hds (by decide) (by decide)
      (by decide) (by decide) hsize

theorem C6_overflow_exact_witness :
    parseByteSize ([49, 54, 51, 56, 52] ++ [80]) = Except.error PErr.overflow :=
  (C6_overflow_exact [49, 54, 51, 56, 52] [80]
    (1024 * 1024 * 1024 * 1024 * 1024) (by decide) (by decide) (by decide)
    (by decide)).mpr (by decide)

/-- C7 counterexample: Go computes `index + 1` in wrapping `uint64`
arithmetic, so the out-of-range check `fileCount < index+1` passes for
`index = 2 ^ 64 - 1` (the sum wraps to `0`): with one file, that far
out-of-range index still succeeds and yields the name `"xqp"` instead of
failing as the claim requires for every `index ≥ n`. -/
theorem C7_cex_index_wrap :
    genFileName [120] (2 ^ 64 - 1) 1 SplitType.ByFiles =
      Except.ok [120, 113, 112] ∧
    1 ≤ 2 ^ 64 - 1 := by
  constructor
  · have hmod : (2 ^ 64 - 1 + 1) % 2 ^ 64 = 0 := by norm_num
    simp only [genFileName, hmod, true_and, if_true]
    rw [if_neg (by omega : ¬ (1 < 0))]
    rw [if_neg (by decide : ¬ ([120] : List ℕ) = [])]
    rw [if_pos (by omega : (1 : ℕ) < 27)]
    simp only [renderLoop_eq, emitSmall 1 (le_refl 1) (by norm_num),
      padDigits_eq_specNumeral]
    rw [← specNumeral_succ]
    decide
  · norm_num

/-- C7: under `ByFiles` with `n ≥ 1` and an index below `2 ^ 64`,
`genFileName` fails exactly for an out-of-range index that is not
`2 ^ 64 - 1` (the wraparound exception the counterexample exhibits), and
succeeds for every index below `n`. -/
theorem C7_byfiles_range (pfx : List ℕ) (hp : pfx ≠ []) (idx n : ℕ)
    (h64 : idx < 2 ^ 64) (hn : 1 ≤ n) :
    (genFileName pfx idx n SplitType.ByFiles = Except.error () ↔
      n ≤ idx ∧ idx ≠ 2 ^ 64 - 1) ∧
    (idx < n →
      ∃ name, genFileName pfx idx n SplitType.ByFiles = Except.ok name) := by
  refine ⟨genFileName_byfiles_error pfx idx n h64, ?_⟩
  intro hlt
  match hg : genFileName pfx idx n SplitType.ByFiles with
  | Except.error e =>
    exfalso
    cases e
    have h2 := (genFileName_byfiles_error pfx idx n h64).mp hg
    omega
  | Except.ok a => exact ⟨a, rfl⟩

theorem C7_byfiles_range_witness :
    ((0 : ℕ) < 2 ^ 64) ∧
    (genFileName [120] 0 1 SplitType.ByFiles = Except.error () ↔
      1 ≤ 0 ∧ (0 : ℕ) ≠ 2 ^ 64 - 1) :=
  ⟨by norm_num, (C7_byfiles_range [120] (by decide) 0 1 (by norm_num)
    (by decide)).1⟩

/-- C8 counterexample: for `n = 26 ^ 12 + 1` the minimal width with
`26 ^ w ≥ n` is 13, but `float64(26 ^ 12 + 1)` rounds down to `26 ^ 12`,
the `fileCountF / 26 == 1` break fires one division early, and the suffix
has only 12 letters. -/
theorem C8_cex_width_not_minimal :
    genFileName [120] 0 (26 ^ 12 + 1) SplitType.ByFiles =
      Except.ok ([120] ++ specNumeral 12 0) ∧
    ([120] ++ specNumeral 12 0).length ≠ 1 + 13 ∧
    26 ^ 12 < 26 ^ 12 + 1 := by
  refine ⟨?_, by decide, by norm_num⟩
  apply genFileName_byfiles_wide [120] (by decide) 0 (26 ^ 12 + 1) 12
    (by norm_num) (by norm_num) (by norm_num)
  rw [← emitCountN_eq _ (by positivity)]
  decide

/-- C8: under `ByFiles(n)` with a valid index, the suffix is the index as
a fixed-width base-26 numeral over `'a'..'z'` left-padded with `'a'`; the
width is 2 when `n ≤ 26`, and is the minimal `w` with `26 ^ w ≥ n` for
`26 < n ≤ 26 ^ 12` (widths 2 through 12). -/
theorem C8_byfiles_width (pfx : List ℕ) (hp : pfx ≠ []) (n idx : ℕ)
    (hn : 1 ≤ n) (hidx : idx < n) :
    (n ≤ 26 → genFileName pfx idx n SplitType.ByFiles =
      Except.ok (pfx ++ specNumeral 2 idx)) ∧
    (∀ w, 2 ≤ w → w ≤ 12 → 26 ^ (w - 1) < n → n ≤ 26 ^ w →
      genFileName pfx idx n SplitType.ByFiles =
        Except.ok (pfx ++ specNumeral w idx)) := by
  constructor
  · intro h26
    exact genFileName_byfiles_small pfx hp idx n hn h26 hidx
  · intro w hw2 hw12 hlo hhi
    have h27 : 27 ≤ n := by
      have h1 : (26 : ℕ) ≤ 26 ^ (w - 1) := by
        calc (26 : ℕ) = 26 ^ 1 := (pow_one 26).symm
        _ ≤ 26 ^ (w - 1) := Nat.pow_le_pow_right (by norm_num) (by omega)
      omega
    exact genFileName_byfiles_large pfx hp idx n w h27 hidx hw2 hw12 hlo hhi

theorem C8_byfiles_width_witness :
    genFileName [120] 0 2 SplitType.ByFiles =
      Except.ok ([120] ++ specNumeral 2 0) :=
  (C8_byfiles_width [120] (by decide) 2 0 (by decide) (by decide)).1 (by decide)

/-- C1 counterexample: in window 12 (`26 ^ 12 - 26 ≤ i < 26 ^ 13 - 26`)
the numeral after the 11 `'z'`s has 12 letters, not the claimed
`k + 1 = 13`: `float64(26 ^ 12 + 1)` rounds down to `26 ^ 12`, so the
rendering loop stops one division early. -/
theorem C1_cex_window12 :
    genFileName [120] (26 ^ 12 - 26) 0 SplitType.ByBytes =
      Except.ok ([120] ++ (List.replicate 11 122 ++ specNumeral 12 0)) ∧
    [120] ++ (List.replicate 11 122 ++ specNumeral 12 0) ≠
      [120] ++ (List.replicate 11 122 ++ specNumeral 13 0) := by
  constructor
  · rw [genFileName_window12 [120] (by decide) (26 ^ 12 - 26) 0
      SplitType.ByBytes (by decide) (le_refl _) (by norm_num), Nat.sub_self]
  · decide

/-- C1: under `ByBytes`/`ByLines`, for an index in window `k` with
`k ≤ 11` (`26 ^ k - 26 ≤ i < 26 ^ (k+1) - 26`), the suffix is `k - 1`
letters `'z'` followed by the rebased index `i - (26 ^ k - 26)` as a
`(k+1)`-letter base-26 numeral over `'a'..'z'` padded with `'a'`; in
particular index 649 gives suffix `"yz"` and index 650 gives `"zaaa"`,
the suffix length jumping from 2 to 4. -/
theorem C1_carry_convention (pfx : List ℕ) (hp : pfx ≠ []) (st : SplitType)
    (hst : st ≠ SplitType.ByFiles) (c i k : ℕ) (hk1 : 26 ^ k - 26 ≤ i)
    (hk2 : i < 26 ^ (k + 1) - 26) (hk11 : k ≤ 11) :
    genFileName pfx i c st =
      Except.ok (pfx ++ (List.replicate (k - 1) 122 ++
        specNumeral (k + 1) (i - (26 ^ k - 26)))) ∧
    genFileName pfx 649 c st = Except.ok (pfx ++ [121, 122]) ∧
    genFileName pfx 650 c st = Except.ok (pfx ++ [122, 97, 97, 97]) := by
  refine ⟨genFileName_window pfx hp i c k st hst hk1 hk2 hk11, ?_, ?_⟩
  · rw [genFileName_window pfx hp 649 c 1 st hst (by norm_num) (by norm_num)
      (by norm_num)]
    have h : List.replicate (1 - 1) (122 : ℕ) ++
        specNumeral (1 + 1) (649 - (26 ^ 1 - 26)) = [121, 122] := by decide
    rw [h]
  · rw [genFileName_window pfx hp 650 c 2 st hst (by norm_num) (by norm_num)
      (by norm_num)]
    have h : List.replicate (2 - 1) (122 : ℕ) ++
        specNumeral (2 + 1) (650 - (26 ^ 2 - 26)) = [122, 97, 97, 97] := by
      decide
    rw [h]

theorem C1_carry_convention_witness :
    genFileName [120] 0 0 SplitType.ByBytes =
      Except.ok ([120] ++ (List.replicate (1 - 1) 122 ++
        specNumeral (1 + 1) (0 - (26 ^ 1 - 26)))) :=
  (C1_carry_convention [120] (by decide) SplitType.ByBytes (by decide) 0 0 1
    (by decide) (by decide) (by decide)).1

/-- C2 counterexample: strict monotonicity fails inside window 12: the
indices `26 ^ 12 - 26 < 2 * 26 ^ 12 - 26` get the same name (the 12-letter
numeral wraps at `26 ^ 12`), and lexicographic order is irreflexive. -/
theorem C2_cex_name_repeats :
    genFileName [120] (26 ^ 12 - 26) 0 SplitType.ByLines =
      Except.ok ([120] ++ (List.replicate 11 122 ++ specNumeral 12 0)) ∧
    genFileName [120] (2 * 26 ^ 12 - 26) 0 SplitType.ByLines =
      Except.ok ([120] ++ (List.replicate 11 122 ++ specNumeral 12 0)) ∧
    26 ^ 12 - 26 < 2 * 26 ^ 12 - 26 ∧
    ¬ List.Lex (· < ·)
      ([120] ++ (List.replicate 11 122 ++ specNumeral 12 0))
      ([120] ++ (List.replicate 11 122 ++ specNumeral 12 0)) := by
  refine ⟨?_, ?_, by norm_num, lex_irrefl_nat _⟩
  · rw [genFileName_window12 [120] (by decide) _ 0 SplitType.ByLines
      (by decide) (le_refl _) (by norm_num), Nat.sub_self]
  · rw [genFileName_window12 [120] (by decide) _ 0 SplitType.ByLines
      (by decide) (by norm_num) (by norm_num)]
    have h : 2 * 26 ^ 12 - 26 - (26 ^ 12 - 26) = 26 ^ 12 := by norm_num
    rw [h, specNumeral_mod 12 (26 ^ 12), Nat.mod_self]

/-- C2: `genFileName` is strictly monotone lexicographically on the ranges
where names do not yet repeat: under `ByBytes`/`ByLines` for indices
`i < j < 26 ^ 12 - 26` (windows 1 through 11), and under `ByFiles(n)` with
`n ≤ 26 ^ 12` for valid indices `i < j < n`. -/
theorem C2_lex_monotone (pfx : List ℕ) (hp : pfx ≠ []) :
    (∀ st, st ≠ SplitType.ByFiles → ∀ c i j, i < j → j < 26 ^ 12 - 26 →
      ∃ a b, genFileName pfx i c st = Except.ok a ∧
        genFileName pfx j c st = Except.ok b ∧ List.Lex (· < ·) a b) ∧
    (∀ n i j, 1 ≤ n → n ≤ 26 ^ 12 → i < j → j < n →
      ∃ a b, genFileName pfx i n SplitType.ByFiles = Except.ok a ∧
        genFileName pfx j n SplitType.ByFiles = Except.ok b ∧
        List.Lex (· < ·) a b) := by
  constructor
  · intro st hst c i j hij hj
    have h12 : (26 : ℕ) ^ (11 + 1) = 26 ^ 12 := by norm_num
    obtain ⟨k2, hk21, hk211, hk23, hk24⟩ := window_exists 11 j (by norm_num)
      (by rw [h12]; exact hj)
    obtain ⟨k1, hk11', hk111, hk13, hk14⟩ := window_exists 11 i (by norm_num)
      (by rw [h12]; omega)
    refine ⟨_, _, genFileName_window pfx hp i c k1 st hst hk13 hk14 hk111,
      genFileName_window pfx hp j c k2 st hst hk23 hk24 hk211, ?_⟩
    rcases Nat.lt_trichotomy k1 k2 with hlt | heq | hgt
    · apply lex_append_left
      apply window_lex_cross k1 k2 (i - (26 ^ k1 - 26))
        (specNumeral (k2 + 1) (j - (26 ^ k2 - 26))) hk11' hlt
      have h1 : (26 : ℕ) ^ (k1 + 1) = 26 * 26 ^ k1 := pow_succ' 26 k1
      have h2 : (1 : ℕ) ≤ 26 ^ k1 := Nat.one_le_pow _ _ (by norm_num)
      omega
    · subst heq
      apply lex_append_left
      exact window_lex_same k1 i j hk13 hij hk24
    · exfalso
      have hle : (26 : ℕ) ^ (k2 + 1) ≤ 26 ^ k1 :=
        Nat.pow_le_pow_right (by norm_num) (by omega)
      omega
  · intro n i j hn1 hn12 hij hjn
    by_cases h26 : n ≤ 26
    · refine ⟨_, _, genFileName_byfiles_small pfx hp i n hn1 h26 (by omega),
        genFileName_byfiles_small pfx hp j n hn1 h26 hjn, ?_⟩
      apply lex_append_left
      apply specNumeral_lt 2 i j hij
      calc j < n := hjn
      _ ≤ 26 := h26
      _ < 26 ^ 2 := by norm_num
    · obtain ⟨w, hw2, hw12, hwlo, hwhi⟩ := width_exists 12 n (by norm_num)
        (by omega) hn12
      refine ⟨_, _,
        genFileName_byfiles_large pfx hp i n w (by omega) (by omega) hw2 hw12
          hwlo hwhi,
        genFileName_byfiles_large pfx hp j n w (by omega) hjn hw2 hw12
          hwlo hwhi, ?_⟩
      apply lex_append_left
      exact specNumeral_lt w i j hij (lt_of_lt_of_le hjn hwhi)

theorem C2_lex_monotone_witness :
    ([120] : List ℕ) ≠ [] ∧
    (∃ a b, genFileName [120] 0 0 SplitType.ByBytes = Except.ok a ∧
      genFileName [120] 1 0 SplitType.ByBytes = Except.ok b ∧
      List.Lex (· < ·) a b) :=
  ⟨by decide, (C2_lex_monotone [120] (by decide)).1 SplitType.ByBytes
    (by decide) 0 0 1 (by decide) (by norm_num)⟩
